import Mathlib

/-!
# Verification of the `gor` Go front end (tokenizer, classifier, parser)

Shallow embedding of the core of the repository:
* `src/src/lexer/token_type.rs` — `Operator`, `Keyword`, `TokenKind`,
  `TokenKind::from_str`, `TokenKind::could_match`;
* `src/src/lexer/token.rs` — `Token`;
* `src/src/primitives/position.rs`, `src/src/primitives/errors/*` —
  `Position`, `LexerError`, `ParserError`;
* `src/src/lexer/lexer.rs` — the `Lexer` state machine (`next_token`,
  `peek_tokens`, `errors`, `had_newline_before_current_token`);
* `src/src/parser/parser.rs` and `src/src/parser/ast.rs` — the
  recursive-descent `Parser` and the AST.

Strings are modelled as `List Char` and all offsets as character indices
(the Rust code mixes byte offsets and `chars().nth`; on the ASCII inputs
exercised here the two coincide).  Loops of the Rust code are modelled by
fuel-indexed structural recursion (`Option` result, `none` = fuel
exhausted); totality is recovered by explicit fuel bounds proved
sufficient below, which is exactly the termination argument for the
original loops.
-/

set_option maxRecDepth 8000
set_option maxHeartbeats 1000000

namespace Gor

/-! ## Positions and errors (`primitives/position.rs`, `primitives/errors`) -/

structure Position where
  line : Nat
  column_start : Nat
  column_end : Nat
deriving DecidableEq, Repr

def Position.new (line column_start column_end : Nat) : Position :=
  ⟨line, column_start, column_end⟩

inductive LexerErrorKind where
  | IncompleteToken (token : List Char)
  | UnexpectedToken (token : List Char)
  | UnterminatedString (token : List Char)
  | UnterminatedRune (token : List Char)
deriving DecidableEq, Repr

structure LexerError where
  kind : LexerErrorKind
  position : Position
deriving DecidableEq, Repr

def LexerError.new (kind : LexerErrorKind) (position : Position) : LexerError :=
  ⟨kind, position⟩

/-! ## Token kinds (`lexer/token_type.rs`) -/

inductive Operator where
  | Plus | Minus | Star | Slash | Percent | Ampersand | Pipe | Caret
  | LessLess | GreaterGreater | AmpersandCaret | AndAnd | PipePipe
  | EqualEqual | BangEqual | Less | LessEqual | Greater | GreaterEqual
deriving DecidableEq, Repr

/-- `Operator::precedence` (https://go.dev/ref/spec#Operator_precedence). -/
def Operator.precedence : Operator → Nat
  | .PipePipe => 1
  | .AndAnd => 2
  | .EqualEqual | .BangEqual | .Less | .LessEqual | .Greater | .GreaterEqual => 3
  | .Plus | .Minus | .Pipe | .Caret => 4
  | .Star | .Slash | .Percent | .LessLess | .GreaterGreater
  | .Ampersand | .AmpersandCaret => 5

inductive Keyword where
  | Break | Case | Chan | Const | Continue | Default | Defer | Else
  | Fallthrough | For | Func | Go | Goto | If | Import | Interface
  | Map | Package | Range | Return | Select | Struct | Switch | Type | Var
deriving DecidableEq, Repr

inductive TokenKind where
  | SingleLineComment | StartBlockComment | EndBlockComment
  | EOF | BeforeStart
  | Identifier | IntegerLiteral | FloatLiteral | RuneLiteral | StringLiteral
  | Keyword (k : Keyword)
  | Operator (o : Operator)
  | LessMinus
  | MinusMinus | PlusPlus
  | Equal | ColonEqual | PlusEqual | MinusEqual | StarEqual | SlashEqual
  | PercentEqual | AmpersandEqual | PipeEqual | CaretEqual
  | LessLessEqual | GreaterGreaterEqual | AmpersandCaretEqual
  | Bang | DotDotDot | Dot | Colon | Comma | Semicolon
  | LeftParen | RightParen | LeftBracket | RightBracket
  | LeftBrace | RightBrace | Backtick | DollarSign | Newline
deriving DecidableEq, Repr

/-- `is_valid_string_content`: every `\` must be followed by another
character; all other characters are valid. -/
def is_valid_string_content : List Char → Bool
  | [] => true
  | '\\' :: rest =>
    match rest with
    | [] => false
    | _ :: rest' => is_valid_string_content rest'
  | _ :: rest => is_valid_string_content rest

/-- `is_valid_rune_content`: one escape pair, or exactly one character. -/
def is_valid_rune_content (value : List Char) : Bool :=
  match value with
  | [] => false
  | '\\' :: rest => rest.length == 1
  | _ :: rest => rest.isEmpty

namespace TokenKind

/-- The fixed keyword/operator/punctuation table of `TokenKind::from_str`,
as (spelling, kind) pairs, in the order the Rust `match` lists them. -/
def fixedTable : List (List Char × TokenKind) :=
  [("break".data, .Keyword .Break), ("case".data, .Keyword .Case),
   ("chan".data, .Keyword .Chan), ("const".data, .Keyword .Const),
   ("continue".data, .Keyword .Continue), ("default".data, .Keyword .Default),
   ("defer".data, .Keyword .Defer), ("else".data, .Keyword .Else),
   ("fallthrough".data, .Keyword .Fallthrough), ("for".data, .Keyword .For),
   ("func".data, .Keyword .Func), ("go".data, .Keyword .Go),
   ("goto".data, .Keyword .Goto), ("if".data, .Keyword .If),
   ("import".data, .Keyword .Import), ("interface".data, .Keyword .Interface),
   ("map".data, .Keyword .Map), ("package".data, .Keyword .Package),
   ("range".data, .Keyword .Range), ("return".data, .Keyword .Return),
   ("select".data, .Keyword .Select), ("struct".data, .Keyword .Struct),
   ("switch".data, .Keyword .Switch), ("type".data, .Keyword .Type),
   ("var".data, .Keyword .Var),
   ("...".data, .DotDotDot), ("<<=".data, .LessLessEqual),
   (">>=".data, .GreaterGreaterEqual), ("&^=".data, .AmpersandCaretEqual),
   ("==".data, .Operator .EqualEqual), ("!=".data, .Operator .BangEqual),
   ("&&".data, .Operator .AndAnd), ("||".data, .Operator .PipePipe),
   ("+=".data, .PlusEqual), ("-=".data, .MinusEqual),
   ("*=".data, .StarEqual), ("/=".data, .SlashEqual),
   ("%=".data, .PercentEqual), ("&=".data, .AmpersandEqual),
   ("|=".data, .PipeEqual), ("^=".data, .CaretEqual),
   ("<-".data, .LessMinus), ("++".data, .PlusPlus), ("--".data, .MinusMinus),
   (":=".data, .ColonEqual),
   ("<".data, .Operator .Less), ("<=".data, .Operator .LessEqual),
   (">".data, .Operator .Greater), (">=".data, .Operator .GreaterEqual),
   ("<<".data, .Operator .LessLess), (">>".data, .Operator .GreaterGreater),
   ("&^".data, .Operator .AmpersandCaret),
   ("+".data, .Operator .Plus), ("-".data, .Operator .Minus),
   ("*".data, .Operator .Star), ("/".data, .Operator .Slash),
   ("%".data, .Operator .Percent), ("&".data, .Operator .Ampersand),
   ("|".data, .Operator .Pipe), ("^".data, .Operator .Caret),
   ("!".data, .Bang), ("=".data, .Equal), (".".data, .Dot),
   (":".data, .Colon), (",".data, .Comma), (";".data, .Semicolon),
   ("(".data, .LeftParen), (")".data, .RightParen),
   ("[".data, .LeftBracket), ("]".data, .RightBracket),
   ("\x7b".data, .LeftBrace), ("\x7d".data, .RightBrace),
   ("`".data, .Backtick), ("$".data, .DollarSign)]

/-- Exact lookup in the fixed table (the literal `match` arms of
`TokenKind::from_str` before the structural fallback). -/
def tableLookup (value : List Char) : Option TokenKind :=
  (List.find? (fun p => p.1 == value) fixedTable).map Prod.snd

/-- `TokenKind::from_str`. -/
def fromStr (value : List Char) : Option TokenKind :=
  if value.isEmpty || value.all (fun c => c.isWhitespace) then
    none
  else
    let is_integer_literal := value.all (fun c => c.isDigit)
    let is_float_literal :=
      value.contains '.' &&
      value.all (fun c => c.isDigit || c == '.') &&
      value.count '.' == 1 &&
      !(value.head? == some '.') &&
      !(value.getLast? == some '.')
    let is_valid_identifier :=
      match value.head? with
      | some first_char =>
        (first_char.isAlpha || first_char == '_') &&
        value.all (fun c => c.isAlphanum || c == '_')
      | none => false
    let is_valid_string :=
      decide (2 ≤ value.length) &&
      value.head? == some '"' &&
      value.getLast? == some '"' &&
      is_valid_string_content (value.drop 1 |>.dropLast)
    let is_valid_rune :=
      decide (3 ≤ value.length) &&
      value.head? == some '\'' &&
      value.getLast? == some '\'' &&
      is_valid_rune_content (value.drop 1 |>.dropLast)
    match tableLookup value with
    | some k => some k
    | none =>
      if is_integer_literal then some .IntegerLiteral
      else if is_float_literal then some .FloatLiteral
      else if is_valid_identifier then some .Identifier
      else if is_valid_string then some .StringLiteral
      else if is_valid_rune then some .RuneLiteral
      else none

/-- `TokenKind::is_tokenizeable`. -/
def is_tokenizeable (value : List Char) : Bool :=
  (fromStr value).isSome

/-- The `TOKENS` constant of `TokenKind::could_match`. -/
def TOKENS : List (List Char) :=
  ["break".data, "case".data, "chan".data, "const".data, "continue".data,
   "default".data, "defer".data, "else".data, "fallthrough".data, "for".data,
   "func".data, "go".data, "goto".data, "if".data, "import".data,
   "interface".data, "map".data, "package".data, "range".data, "return".data,
   "select".data, "struct".data, "switch".data, "type".data, "var".data,
   "+".data, "-".data, "*".data, "/".data, "%".data, "&".data, "|".data,
   "^".data, "<<".data, ">>".data, "&^".data, "+=".data, "-=".data,
   "*=".data, "/=".data, "%=".data, "&=".data, "|=".data, "^=".data,
   "<<=".data, ">>=".data, "&^=".data, "&&".data, "||".data, "<-".data,
   "++".data, "--".data, "==".data, "!=".data, "<".data, "<=".data,
   ">".data, ">=".data, "=".data, ":=".data, "!".data, "...".data,
   ".".data, ":".data, ",".data, ";".data, "(".data, ")".data, "[".data,
   "]".data, "\x7b".data, "\x7d".data]

/-- `TokenKind::could_match`: could `input` still grow into a valid
token (static-token prefix, partial identifier, partial integer, or
partial float)? -/
def couldMatch (input : List Char) : Bool :=
  if TOKENS.any (fun t => input.isPrefixOf t) then true
  else if (match input.head? with
           | some first_char =>
             (first_char.isAlpha || first_char == '_') &&
             input.all (fun c => c.isAlphanum || c == '_')
           | none => false) then true
  else if !input.isEmpty && input.all (fun c => c.isDigit) then true
  else if !input.isEmpty && !(input.head? == some '.') &&
          decide (input.count '.' ≤ 1) &&
          input.all (fun c => c.isDigit || c == '.') then true
  else false

end TokenKind

/-! ## Tokens (`lexer/token.rs`) -/

structure Token where
  kind : Option TokenKind
  value : List Char
  position : Position
deriving DecidableEq, Repr

def Token.new (value : List Char) (position : Position) : Token :=
  ⟨TokenKind.fromStr value, value, position⟩

def Token.newWithKind (kind : TokenKind) (value : List Char)
    (position : Position) : Token :=
  ⟨some kind, value, position⟩

def Token.newBeforeStart : Token :=
  ⟨some .BeforeStart, [], Position.new 0 0 0⟩

/-! ## The tokenizer (`lexer/lexer.rs`) -/

/-- `is_symbol` (free function in `lexer/lexer.rs`). -/
def is_symbol (c : Char) : Bool :=
  ['+', '-', '*', '/', '%', '&', '|', '^', '<', '>', '=', '!', '.', ':',
   ',', ';', '(', ')', '[', ']', '{', '}'].contains c

/-- `is_whitespace` (free function in `lexer/lexer.rs`). -/
def is_whitespace (c : Char) : Bool :=
  c == '\n' || c == '\t' || c == '\r' || c == ' '

/-- `&input[a..b]` on character lists. -/
def slice (l : List Char) (a b : Nat) : List Char :=
  (l.take b).drop a

structure Lexer where
  input : List Char
  current_position : Nat
  anchor : Nat
  errors : List LexerError
  is_parsing_string : Bool
  is_parsing_rune : Bool
  newline_before_current_token : Bool
deriving DecidableEq, Repr

namespace Lexer

def new (input : List Char) : Lexer :=
  { input := input, current_position := 0, anchor := 0, errors := []
    is_parsing_string := false, is_parsing_rune := false
    newline_before_current_token := false }

/-- `Lexer::peek`. -/
def peekChar (st : Lexer) : Option Char :=
  st.input.get? st.current_position

/-- `Lexer::peek_is_whitespace` (EOF counts as a whitespace boundary). -/
def peek_is_whitespace (st : Lexer) : Bool :=
  match st.peekChar with
  | some c => is_whitespace c
  | none => true

/-- `Lexer::current_line`: 1 + number of newlines before the scan offset
(`split('\n').count()` on the prefix). -/
def current_line (st : Lexer) : Nat :=
  ((st.input.take (min st.current_position st.input.length)).count '\n') + 1

/-- `Lexer::current_token_position`. -/
def current_token_position (st : Lexer) : Position :=
  Position.new st.current_line st.anchor st.current_position

/-- `Lexer::proposed_token`. -/
def proposed_token (st : Lexer) (already_iterated : Bool) : List Char :=
  slice st.input st.anchor
    (st.current_position - (if already_iterated then 1 else 0))

/-- `Lexer::handle_whitespace`: record a crossed newline, advance anchor. -/
def handle_whitespace (st : Lexer) : Lexer :=
  match st.input.get? (st.current_position - 1) with
  | some ch =>
    if ch = '\n' then
      { st with newline_before_current_token := true, anchor := st.current_position }
    else
      { st with anchor := st.current_position }
  | none => { st with anchor := st.current_position }

/-- The `self.next()` call whose result is discarded (escape sequences):
advance one position if any input remains. -/
def advanceOne (st : Lexer) : Lexer :=
  match st.input.get? st.current_position with
  | none => st
  | some _ => { st with current_position := st.current_position + 1 }

/-- `Lexer::tokenize`: `Ok (some token)` = complete token, `Ok none` =
keep accumulating (longest match still possible), `Err` = unexpected
token at a boundary. -/
def tokenize (st : Lexer) (value : List Char) : Except LexerError (Option Token) :=
  match TokenKind.fromStr value with
  | some _ =>
    match st.peekChar with
    | some next_c =>
      if !st.peek_is_whitespace && TokenKind.couldMatch (value ++ [next_c]) then
        .ok none
      else
        .ok (some (Token.new value st.current_token_position))
    | none => .ok (some (Token.new value st.current_token_position))
  | none =>
    if !st.peek_is_whitespace && TokenKind.couldMatch value then
      .ok none
    else
      .error (LexerError.new (.UnexpectedToken value) st.current_token_position)

/-- `Lexer::finalize_string`. -/
def finalize_string (st : Lexer) : Token × Lexer :=
  let content := slice st.input st.anchor st.current_position
  (Token.newWithKind .StringLiteral content st.current_token_position,
   { st with is_parsing_string := false, anchor := st.current_position })

/-- `Lexer::finalize_rune`. -/
def finalize_rune (st : Lexer) : Token × Lexer :=
  let content := slice st.input st.anchor st.current_position
  (Token.newWithKind .RuneLiteral content st.current_token_position,
   { st with is_parsing_rune := false, anchor := st.current_position })

/-- `Lexer::handle_word`.  `none` means "no token yet" — on those paths
the Rust code does not mutate the lexer. -/
def handle_word (st : Lexer) : Option (Token × Lexer) :=
  match st.tokenize (st.proposed_token false) with
  | .ok (some token) =>
    match token.kind with
    | none => none
    | some _ => some (token, { st with anchor := st.current_position })
  | .ok none => none
  | .error e =>
    let st1 := { st with errors := st.errors ++ [e], anchor := st.current_position }
    some (Token.new [] st1.current_token_position, st1)

/-- `Lexer::handle_symbol`. -/
def handle_symbol (st : Lexer) : Option (Token × Lexer) :=
  match st.tokenize (st.proposed_token false) with
  | .ok (some token) => some (token, { st with anchor := st.current_position })
  | .ok none => none
  | .error e =>
    let st1 := { st with errors := st.errors ++ [e], anchor := st.current_position }
    some (Token.new [] st1.current_token_position, st1)

/-- `Lexer::handle_symbol_char`: finalize a pending non-symbol lexeme
(rewinding the cursor so the symbol is reprocessed), else accumulate the
symbol itself. -/
def handle_symbol_char (st : Lexer) : Option (Token × Lexer) :=
  let symbol_pos := st.current_position - 1
  if st.anchor < symbol_pos then
    let pending_value := slice st.input st.anchor symbol_pos
    if !pending_value.all is_symbol then
      -- rewind so the symbol is reprocessed from a fresh anchor
      let st1 := { st with current_position := symbol_pos }
      let wordToken : Token × Lexer :=
        match TokenKind.fromStr pending_value with
        | some _ =>
          (Token.new pending_value (Position.new st1.current_line st1.anchor symbol_pos), st1)
        | none =>
          let e := LexerError.new (.UnexpectedToken pending_value)
            (Position.new st1.current_line st1.anchor symbol_pos)
          (Token.new [] (Position.new st1.current_line st1.anchor symbol_pos),
           { st1 with errors := st1.errors ++ [e] })
      some (wordToken.1, { wordToken.2 with anchor := symbol_pos })
    else
      st.handle_symbol
  else
    st.handle_symbol

/-- The loop body of `Lexer::next_token`, indexed by fuel (`none` = fuel
exhausted; every loop iteration consumes at least one character, so
`input.length - current_position + 1` is always enough — proved below). -/
def nextTokenF : Nat → Lexer → Option (Token × Lexer)
  | 0, _ => none
  | fuel + 1, st =>
    match st.input.get? st.current_position with
    | some ch =>
      let st1 := { st with current_position := st.current_position + 1 }
      if is_whitespace ch && !st.is_parsing_string && !st.is_parsing_rune then
        nextTokenF fuel st1.handle_whitespace
      else if is_whitespace ch && st.is_parsing_rune then
        let e := LexerError.new (.UnterminatedRune (st1.proposed_token false))
          st1.current_token_position
        let st2 := { st1 with errors := st1.errors ++ [e], is_parsing_rune := false,
                              anchor := st1.current_position }
        some (Token.new [] st2.current_token_position, st2)
      else if ch = '"' then
        if st.is_parsing_string then
          some st1.finalize_string
        else
          nextTokenF fuel
            { st1 with is_parsing_string := true, anchor := st1.current_position - 1 }
      else if ch = '\'' then
        if st.is_parsing_rune then
          some st1.finalize_rune
        else
          nextTokenF fuel
            { st1 with is_parsing_rune := true, anchor := st1.current_position - 1 }
      else if st.is_parsing_string then
        if ch = '\\' then nextTokenF fuel st1.advanceOne else nextTokenF fuel st1
      else if st.is_parsing_rune then
        if ch = '\\' then nextTokenF fuel st1.advanceOne else nextTokenF fuel st1
      else if is_symbol ch then
        match st1.handle_symbol_char with
        | some r => some r
        | none => nextTokenF fuel st1
      else
        match st1.handle_word with
        | some r => some r
        | none => nextTokenF fuel st1
    | none =>
      if st.is_parsing_string then
        let e := LexerError.new (.UnterminatedString (st.proposed_token false))
          st.current_token_position
        let st1 := { st with errors := st.errors ++ [e], is_parsing_string := false,
                             anchor := st.current_position }
        some (Token.new [] st1.current_token_position, st1)
      else if st.is_parsing_rune then
        let e := LexerError.new (.UnterminatedRune (st.proposed_token false))
          st.current_token_position
        let st1 := { st with errors := st.errors ++ [e], is_parsing_rune := false,
                             anchor := st.current_position }
        some (Token.new [] st1.current_token_position, st1)
      else
        some (Token.newWithKind .EOF [] st.current_token_position, st)

/-- Sufficient fuel for one `next_token` call from state `st`. -/
def lexFuel (st : Lexer) : Nat :=
  st.input.length - st.current_position + 1

/-- `Lexer::next_token` as a total function (the fuel is sufficient,
`nextTokenF_lexFuel_isSome` below). -/
def nextToken (st : Lexer) : Token × Lexer :=
  (nextTokenF st.lexFuel st).getD
    (Token.newWithKind .EOF [] st.current_token_position, st)

/-- `Lexer::had_newline_before_current_token` (consuming query). -/
def had_newline_before_current_token (st : Lexer) : Bool × Lexer :=
  (st.newline_before_current_token, { st with newline_before_current_token := false })

/-- The loop inside `Lexer::peek_tokens`: scan `n` tokens destructively. -/
def peekTokensGo : Nat → Lexer → List Token × Lexer
  | 0, st => ([], st)
  | n + 1, st =>
    let (t, st') := st.nextToken
    let (ts, st'') := peekTokensGo n st'
    (t :: ts, st'')

/-- `Lexer::peek_tokens`: scan ahead, then restore scanner offset,
anchor and the string/rune parsing flags. -/
def peekTokens (lookahead : Nat) (st : Lexer) : List Token × Lexer :=
  let (tokens, st') := peekTokensGo lookahead st
  (tokens,
   { st' with current_position := st.current_position, anchor := st.anchor,
              is_parsing_string := st.is_parsing_string,
              is_parsing_rune := st.is_parsing_rune })

end Lexer

/-- Driver: repeatedly call `next_token` until an `EOF` token is returned
(as the Rust tests and the CLI do), collecting all returned tokens, the
`EOF` token included. -/
def scanGo : Nat → Lexer → List Token × Lexer
  | 0, st => ([], st)
  | n + 1, st =>
    let (t, st') := st.nextToken
    if t.kind = some .EOF then ([t], st')
    else
      let (ts, st'') := scanGo n st'
      (t :: ts, st'')

/-- Scan a whole input from a fresh lexer; the fuel `input.length + 1`
suffices (each non-`EOF` call consumes input or closes a literal mode). -/
def scanAll (input : List Char) : List Token × Lexer :=
  scanGo (2 * input.length + 2) (Lexer.new input)

/-! ## The AST (`parser/ast.rs`) -/

inductive BinaryOperator where
  | Add | Subtract | Multiply | Divide | Modulo
  | Equal | NotEqual | Less | LessEqual | Greater | GreaterEqual
deriving DecidableEq, Repr

/-- `BinaryOperator::precedence`. -/
def BinaryOperator.precedence : BinaryOperator → Nat
  | .Equal | .NotEqual | .Less | .LessEqual | .Greater | .GreaterEqual => 1
  | .Add | .Subtract => 2
  | .Multiply | .Divide | .Modulo => 3

mutual
inductive Expression where
  | mk (kind : ExpressionKind) (position_start : Position) (position_end : Position)

inductive ExpressionKind where
  | Identifier (value : List Char)
  | IntegerLiteral (value : List Char)
  | StringLiteral (value : List Char)
  | FunctionCall (name : Expression) (arguments : List Expression)
  | FieldAccess (object : Expression) (field : List Char)
  | Binary (left : Expression) (operator : BinaryOperator) (right : Expression)
  | Parenthesized (e : Expression)
end

def Expression.kind : Expression → ExpressionKind
  | .mk k _ _ => k

def Expression.position_start : Expression → Position
  | .mk _ s _ => s

def Expression.position_end : Expression → Position
  | .mk _ _ e => e

def Expression.new_identifier (value : List Char) (position : Position) : Expression :=
  .mk (.Identifier value) position position

def Expression.new_integer_literal (value : List Char) (position : Position) : Expression :=
  .mk (.IntegerLiteral value) position position

def Expression.new_string_literal (value : List Char) (position : Position) : Expression :=
  .mk (.StringLiteral value) position position

def Expression.new_function_call (name : Expression) (arguments : List Expression)
    (start_pos end_pos : Position) : Expression :=
  .mk (.FunctionCall name arguments) start_pos end_pos

def Expression.new_field_access (object : Expression) (field : List Char)
    (start_pos end_pos : Position) : Expression :=
  .mk (.FieldAccess object field) start_pos end_pos

mutual
inductive Statement where
  | mk (kind : StatementKind) (position_start : Position) (position_end : Position)

inductive StatementKind where
  | Expression (e : Gor.Expression)
  | PackageDeclaration (name : List Char)
  | ImportDeclaration (path : List Char)
  | FunctionDeclaration (name : List Char) (parameters : List (List Char))
      (body : List Statement)
end

def Statement.kind : Statement → StatementKind
  | .mk k _ _ => k

def Statement.new_package_declaration (name : List Char)
    (start_pos end_pos : Position) : Statement :=
  .mk (.PackageDeclaration name) start_pos end_pos

def Statement.new_import_declaration (path : List Char)
    (start_pos end_pos : Position) : Statement :=
  .mk (.ImportDeclaration path) start_pos end_pos

def Statement.new_function_declaration (name : List Char)
    (parameters : List (List Char)) (body : List Statement)
    (start_pos end_pos : Position) : Statement :=
  .mk (.FunctionDeclaration name parameters body) start_pos end_pos

def Statement.new_expression_statement (expression : Expression)
    (start_pos end_pos : Position) : Statement :=
  .mk (.Expression expression) start_pos end_pos

/-- Is a statement an expression statement?  (Projection used by the
concrete parsing claims; the AST carries no decidable equality because of
the nested lists.) -/
def Statement.isExpressionStatement : Statement → Bool
  | .mk (.Expression _) _ _ => true
  | _ => false

structure Program where
  statements : List Statement

/-! ## Parser errors (`primitives/errors/parser.rs`) -/

inductive ParserErrorKind where
  | LexerError (e : Gor.LexerError)
  | UnexpectedToken (token : List Char)
  | NotAPrimaryExpression (token : List Char)
  | NotImplemented
deriving DecidableEq, Repr

structure ParserError where
  kind : ParserErrorKind
  position : Position
deriving DecidableEq, Repr

def ParserError.new (kind : ParserErrorKind) (position : Position) : ParserError :=
  ⟨kind, position⟩

/-! ## The parser (`parser/parser.rs`)

Each loop / recursive grammar production is indexed by fuel (`none` =
fuel exhausted); sufficiency of an explicit bound is proved below.  The
statement dispatch of `Parser::parse_statement` matches on the
`package` / `import` / `func` keyword kinds of the token enum in
`lexer/token_type.rs`. -/

structure Parser where
  lexer : Lexer
  current_token : Token
  peek_token : Token
  errors : List ParserError
deriving DecidableEq, Repr

namespace Parser

/-- `Parser::new`. -/
def new (input : List Char) : Parser :=
  let lexer := Lexer.new input
  let current_token := Token.newBeforeStart
  let (peek_token, lexer') := lexer.nextToken
  { lexer := lexer', current_token := current_token, peek_token := peek_token,
    errors := [] }

/-- `Parser::advance`: shift `peek` into `current`; pull a fresh `peek`
from the tokenizer unless the new current token is already `EOF`. -/
def advance (st : Parser) : Parser :=
  let cur := st.peek_token
  if cur.kind ≠ some .EOF then
    let (t, lx) := st.lexer.nextToken
    { st with current_token := cur, peek_token := t, lexer := lx }
  else
    { st with current_token := cur,
              peek_token := Token.newWithKind .EOF [] cur.position }

/-- The loop of `Parser::synchronize`: advance until `;` or `EOF`. -/
def synchronizeF : Nat → Parser → Option Parser
  | 0, _ => none
  | fuel + 1, st =>
    if st.peek_token.kind = some .EOF ∨ st.peek_token.kind = some .Semicolon then
      some st
    else
      synchronizeF fuel st.advance

/-- `Parser::expect_token`: on mismatch, record the error and synchronize. -/
def expectTokenF (fuel : Nat) (kind : TokenKind) (st : Parser) :
    Option (Except ParserError Token × Parser) :=
  if st.peek_token.kind = some kind then
    let st' := st.advance
    some (.ok st'.current_token, st')
  else
    let e := ParserError.new (.UnexpectedToken st.peek_token.value)
      st.peek_token.position
    match synchronizeF fuel { st with errors := st.errors ++ [e] } with
    | some st' => some (.error e, st')
    | none => none

/-- `Parser::is_end_of_line` (consumes the tokenizer's newline flag). -/
def isEndOfLine (st : Parser) : Bool × Parser :=
  if st.peek_token.kind = some .EOF then
    (true, st)
  else
    let (b, lx) := st.lexer.had_newline_before_current_token
    (b, { st with lexer := lx })

/-- `Parser::handle_semicolon_insertion`. -/
def handleSemicolonInsertion (st : Parser) : Except ParserError Position × Parser :=
  if st.peek_token.kind = some .Semicolon then
    let st' := st.advance
    (.ok st'.current_token.position, st')
  else
    let (eol, st') := st.isEndOfLine
    if eol then
      (.ok st'.current_token.position, st')
    else
      (.error (ParserError.new
        (.UnexpectedToken
          ("Expected ';' to separate statements on same line, got '".data ++
            st'.peek_token.value ++ "'".data))
        st'.peek_token.position), st')

mutual

/-- `Parser::parse_expression`. -/
def parseExpressionF : Nat → Parser → Option (Except ParserError Expression × Parser)
  | 0, _ => none
  | fuel + 1, st =>
    match st.peek_token.kind with
    | some .Identifier => parseIdentifierExpressionF fuel st
    | some .IntegerLiteral =>
      match expectTokenF fuel .IntegerLiteral st with
      | some (.ok tok, st1) =>
        some (.ok (Expression.new_integer_literal tok.value tok.position), st1)
      | some (.error e, st1) => some (.error e, st1)
      | none => none
    | some .StringLiteral =>
      match expectTokenF fuel .StringLiteral st with
      | some (.ok tok, st1) =>
        some (.ok (Expression.new_string_literal tok.value tok.position), st1)
      | some (.error e, st1) => some (.error e, st1)
      | none => none
    | _ =>
      some (.error (ParserError.new (.UnexpectedToken st.peek_token.value)
        st.peek_token.position), st)

/-- `Parser::parse_identifier_expression` (identifier, then trailers). -/
def parseIdentifierExpressionF : Nat → Parser →
    Option (Except ParserError Expression × Parser)
  | 0, _ => none
  | fuel + 1, st =>
    match expectTokenF fuel .Identifier st with
    | some (.ok tok, st1) =>
      trailerLoopF fuel (Expression.new_identifier tok.value tok.position) st1
    | some (.error e, st1) => some (.error e, st1)
    | none => none

/-- The trailer loop of `parse_identifier_expression`: `.field` and
`(args)` chains. -/
def trailerLoopF : Nat → Expression → Parser →
    Option (Except ParserError Expression × Parser)
  | 0, _, _ => none
  | fuel + 1, expression, st =>
    match st.peek_token.kind with
    | some .Dot =>
      let st1 := st.advance
      match expectTokenF fuel .Identifier st1 with
      | some (.ok field_token, st2) =>
        trailerLoopF fuel
          (Expression.new_field_access expression field_token.value
            expression.position_start field_token.position) st2
      | some (.error e, st2) => some (.error e, st2)
      | none => none
    | some .LeftParen =>
      let start_pos := expression.position_start
      let st1 := st.advance
      let argsStep : Option (Except ParserError (List Expression) × Parser) :=
        if st1.peek_token.kind = some .RightParen then
          some (.ok [], st1)
        else
          argsLoopF fuel st1
      match argsStep with
      | some (.ok arguments, st2) =>
        match expectTokenF fuel .RightParen st2 with
        | some (.ok right_paren, st3) =>
          trailerLoopF fuel
            (Expression.new_function_call expression arguments start_pos
              right_paren.position) st3
        | some (.error e, st3) => some (.error e, st3)
        | none => none
      | some (.error e, st2) => some (.error e, st2)
      | none => none
    | _ => some (.ok expression, st)

/-- The argument loop of `parse_identifier_expression`: expressions
separated by commas. -/
def argsLoopF : Nat → Parser → Option (Except ParserError (List Expression) × Parser)
  | 0, _ => none
  | fuel + 1, st =>
    match parseExpressionF fuel st with
    | some (.ok e, st1) =>
      if st1.peek_token.kind = some .Comma then
        match argsLoopF fuel st1.advance with
        | some (.ok es, st2) => some (.ok (e :: es), st2)
        | some (.error err, st2) => some (.error err, st2)
        | none => none
      else
        some (.ok [e], st1)
    | some (.error err, st1) => some (.error err, st1)
    | none => none

end

/-- `Parser::parse_expression_statement`. -/
def parseExpressionStatementF (fuel : Nat) (st : Parser) :
    Option (Except ParserError Statement × Parser) :=
  match parseExpressionF fuel st with
  | some (.ok expression, st1) =>
    let start_position := expression.position_start
    match handleSemicolonInsertion st1 with
    | (.ok end_position, st2) =>
      some (.ok (Statement.new_expression_statement expression start_position
        end_position), st2)
    | (.error e, st2) => some (.error e, st2)
  | some (.error e, st1) => some (.error e, st1)
  | none => none

/-- `Parser::parse_package_declaration`. -/
def parsePackageDeclarationF (fuel : Nat) (st : Parser) :
    Option (Except ParserError Statement × Parser) :=
  match expectTokenF fuel (.Keyword .Package) st with
  | some (.ok package_token, st1) =>
    let package_pos := package_token.position
    match expectTokenF fuel .Identifier st1 with
    | some (.ok name_token, st2) =>
      match handleSemicolonInsertion st2 with
      | (.ok end_position, st3) =>
        some (.ok (Statement.new_package_declaration name_token.value
          package_pos end_position), st3)
      | (.error e, st3) => some (.error e, st3)
    | some (.error e, st2) => some (.error e, st2)
    | none => none
  | some (.error e, st1) => some (.error e, st1)
  | none => none

/-- `Parser::parse_import_declaration`. -/
def parseImportDeclarationF (fuel : Nat) (st : Parser) :
    Option (Except ParserError Statement × Parser) :=
  match expectTokenF fuel (.Keyword .Import) st with
  | some (.ok import_token, st1) =>
    let import_pos := import_token.position
    match expectTokenF fuel .StringLiteral st1 with
    | some (.ok path_token, st2) =>
      match handleSemicolonInsertion st2 with
      | (.ok end_position, st3) =>
        some (.ok (Statement.new_import_declaration path_token.value
          import_pos end_position), st3)
      | (.error e, st3) => some (.error e, st3)
    | some (.error e, st2) => some (.error e, st2)
    | none => none
  | some (.error e, st1) => some (.error e, st1)
  | none => none

mutual

/-- `Parser::parse_statement`: dispatch on the `package`/`import`/`func`
keywords, else an expression statement. -/
def parseStatementF : Nat → Parser → Option (Except ParserError Statement × Parser)
  | 0, _ => none
  | fuel + 1, st =>
    match st.peek_token.kind with
    | some (.Keyword .Package) => parsePackageDeclarationF fuel st
    | some (.Keyword .Import) => parseImportDeclarationF fuel st
    | some (.Keyword .Func) => parseFunctionDeclarationF fuel st
    | _ => parseExpressionStatementF fuel st

/-- `Parser::parse_function_declaration` (empty parameter list by
design; body parsed up to the closing brace, EOF inside the body is a
terminal error). -/
def parseFunctionDeclarationF : Nat → Parser →
    Option (Except ParserError Statement × Parser)
  | 0, _ => none
  | fuel + 1, st =>
    match expectTokenF fuel (.Keyword .Func) st with
    | some (.ok func_token, st1) =>
      let func_pos := func_token.position
      match expectTokenF fuel .Identifier st1 with
      | some (.ok name_token, st2) =>
        let func_name := name_token.value
        match expectTokenF fuel .LeftParen st2 with
        | some (.ok _, st3) =>
          match expectTokenF fuel .RightParen st3 with
          | some (.ok _, st4) =>
            match expectTokenF fuel .LeftBrace st4 with
            | some (.ok _, st5) =>
              match bodyLoopF fuel st5 with
              | some (.ok body_statements, st6) =>
                match expectTokenF fuel .RightBrace st6 with
                | some (.ok right_brace, st7) =>
                  some (.ok (Statement.new_function_declaration func_name []
                    body_statements func_pos right_brace.position), st7)
                | some (.error e, st7) => some (.error e, st7)
                | none => none
              | some (.error e, st6) => some (.error e, st6)
              | none => none
            | some (.error e, st5) => some (.error e, st5)
            | none => none
          | some (.error e, st4) => some (.error e, st4)
          | none => none
        | some (.error e, st3) => some (.error e, st3)
        | none => none
      | some (.error e, st2) => some (.error e, st2)
      | none => none
    | some (.error e, st1) => some (.error e, st1)
    | none => none

/-- The body loop of `parse_function_declaration`: statements until the
closing `}`; reaching `EOF` first is an error. -/
def bodyLoopF : Nat → Parser → Option (Except ParserError (List Statement) × Parser)
  | 0, _ => none
  | fuel + 1, st =>
    if st.peek_token.kind = some .RightBrace then
      some (.ok [], st)
    else if st.peek_token.kind = some .EOF then
      some (.error (ParserError.new
        (.UnexpectedToken "Expected '\x7d' to close function body".data)
        st.peek_token.position), st)
    else
      match parseStatementF fuel st with
      | some (.ok stmt, st1) =>
        match bodyLoopF fuel st1 with
        | some (.ok stmts, st2) => some (.ok (stmt :: stmts), st2)
        | some (.error e, st2) => some (.error e, st2)
        | none => none
      | some (.error e, st1) => some (.error e, st1)
      | none => none

end

/-- The statement loop of `Parser::parse`: parse statements until `EOF`,
recovering from failed statements by recording the error, synchronizing,
and skipping one token. -/
def parseLoopF : Nat → Parser → List Statement → Option (List Statement × Parser)
  | 0, _, _ => none
  | fuel + 1, st, statements =>
    if st.peek_token.kind = some .EOF then
      some (statements, st)
    else
      match parseStatementF fuel st with
      | some (.ok statement, st1) =>
        parseLoopF fuel st1 (statements ++ [statement])
      | some (.error e, st1) =>
        let st2 := { st1 with errors := st1.errors ++ [e] }
        match synchronizeF fuel st2 with
        | some st3 =>
          let st4 := if st3.peek_token.kind ≠ some .EOF then st3.advance else st3
          parseLoopF fuel st4 statements
        | none => none
      | none => none

/-- `Parser::parse`: an already-nonempty error list is returned as
`Err`; otherwise a best-effort `Program` is built. -/
def parseF (fuel : Nat) (st : Parser) :
    Option (Except (List ParserError) Program × Parser) :=
  if st.errors ≠ [] then
    some (.error st.errors, st)
  else
    match parseLoopF fuel st [] with
    | some (statements, st') => some (.ok ⟨statements⟩, st')
    | none => none

end Parser

/-- Decidable observation of a parse result, used to state concrete
parsing claims (the AST itself has no decidable equality). -/
structure ParseView where
  isOk : Bool
  statementCount : Nat
  allExpressionStatements : Bool
  errors : List ParserError
deriving DecidableEq, Repr

def viewResult :
    Option (Except (List ParserError) Program × Parser) → Option ParseView
  | some (.ok prog, st) =>
    some ⟨true, prog.statements.length,
      prog.statements.all Statement.isExpressionStatement, st.errors⟩
  | some (.error _, st) => some ⟨false, 0, false, st.errors⟩
  | none => none

/-! ## Lexer lemmas -/

namespace Lexer

theorem handle_whitespace_spec (st : Lexer) :
    st.handle_whitespace.input = st.input ∧
    st.handle_whitespace.current_position = st.current_position ∧
    st.handle_whitespace.anchor = st.current_position ∧
    st.handle_whitespace.errors = st.errors ∧
    st.handle_whitespace.is_parsing_string = st.is_parsing_string ∧
    st.handle_whitespace.is_parsing_rune = st.is_parsing_rune := by
  cases h : st.input.get? (st.current_position - 1) with
  | none => simp only [handle_whitespace, h]; simp
  | some c =>
    by_cases hc : c = '\n' <;> simp only [handle_whitespace, h] <;> simp [hc]

theorem advanceOne_spec (st : Lexer) :
    st.advanceOne.input = st.input ∧
    st.advanceOne.anchor = st.anchor ∧
    st.advanceOne.errors = st.errors ∧
    st.advanceOne.is_parsing_string = st.is_parsing_string ∧
    st.advanceOne.is_parsing_rune = st.is_parsing_rune ∧
    st.current_position ≤ st.advanceOne.current_position ∧
    st.advanceOne.current_position ≤ st.current_position + 1 := by
  cases h : st.input.get? st.current_position with
  | none => simp only [advanceOne, h]; simp
  | some c => simp only [advanceOne, h]; simp

theorem handle_word_spec (st : Lexer) (t : Token) (st' : Lexer)
    (h : st.handle_word = some (t, st')) :
    st'.input = st.input ∧
    st'.current_position = st.current_position ∧
    st'.anchor = st.current_position ∧
    st'.is_parsing_string = st.is_parsing_string ∧
    st'.is_parsing_rune = st.is_parsing_rune ∧
    st'.newline_before_current_token = st.newline_before_current_token ∧
    (st'.errors = st.errors ∨ ∃ e, st'.errors = st.errors ++ [e]) := by
  unfold handle_word at h
  rcases htok : st.tokenize (st.proposed_token false) with e | o
  · simp only [htok, Option.some.injEq, Prod.mk.injEq] at h
    obtain ⟨-, h2⟩ := h
    subst h2
    exact ⟨rfl, rfl, rfl, rfl, rfl, rfl, Or.inr ⟨e, rfl⟩⟩
  · cases o with
    | none => simp [htok] at h
    | some tok =>
      cases hk : tok.kind with
      | none => simp [htok, hk] at h
      | some k =>
        simp only [htok, hk, Option.some.injEq, Prod.mk.injEq] at h
        obtain ⟨-, h2⟩ := h
        subst h2
        exact ⟨rfl, rfl, rfl, rfl, rfl, rfl, Or.inl rfl⟩

theorem handle_symbol_spec (st : Lexer) (t : Token) (st' : Lexer)
    (h : st.handle_symbol = some (t, st')) :
    st'.input = st.input ∧
    st'.current_position = st.current_position ∧
    st'.anchor = st.current_position ∧
    st'.is_parsing_string = st.is_parsing_string ∧
    st'.is_parsing_rune = st.is_parsing_rune ∧
    st'.newline_before_current_token = st.newline_before_current_token ∧
    (st'.errors = st.errors ∨ ∃ e, st'.errors = st.errors ++ [e]) := by
  unfold handle_symbol at h
  rcases htok : st.tokenize (st.proposed_token false) with e | o
  · simp only [htok, Option.some.injEq, Prod.mk.injEq] at h
    obtain ⟨-, h2⟩ := h
    subst h2
    exact ⟨rfl, rfl, rfl, rfl, rfl, rfl, Or.inr ⟨e, rfl⟩⟩
  · cases o with
    | none => simp [htok] at h
    | some tok =>
      simp only [htok, Option.some.injEq, Prod.mk.injEq] at h
      obtain ⟨-, h2⟩ := h
      subst h2
      exact ⟨rfl, rfl, rfl, rfl, rfl, rfl, Or.inl rfl⟩

theorem handle_symbol_char_spec (st : Lexer) (t : Token) (st' : Lexer)
    (h : st.handle_symbol_char = some (t, st')) :
    st'.input = st.input ∧
    st'.anchor = st'.current_position ∧
    st'.is_parsing_string = st.is_parsing_string ∧
    st'.is_parsing_rune = st.is_parsing_rune ∧
    st'.newline_before_current_token = st.newline_before_current_token ∧
    (st'.errors = st.errors ∨ ∃ e, st'.errors = st.errors ++ [e]) ∧
    (st'.current_position = st.current_position ∨
      (st'.current_position = st.current_position - 1 ∧
        st.anchor < st.current_position - 1)) := by
  simp only [handle_symbol_char] at h
  by_cases ha : st.anchor < st.current_position - 1
  · rw [if_pos ha] at h
    by_cases hp : (!(slice st.input st.anchor (st.current_position - 1)).all is_symbol) = true
    · rw [if_pos hp] at h
      rcases hf : TokenKind.fromStr (slice st.input st.anchor (st.current_position - 1)) with - | k
      · simp only [hf, Option.some.injEq, Prod.mk.injEq] at h
        obtain ⟨-, h2⟩ := h
        subst h2
        exact ⟨rfl, rfl, rfl, rfl, rfl, Or.inr ⟨_, rfl⟩, Or.inr ⟨rfl, ha⟩⟩
      · simp only [hf, Option.some.injEq, Prod.mk.injEq] at h
        obtain ⟨-, h2⟩ := h
        subst h2
        exact ⟨rfl, rfl, rfl, rfl, rfl, Or.inl rfl, Or.inr ⟨rfl, ha⟩⟩
    · rw [if_neg hp] at h
      obtain ⟨h1, h2, h3, h4, h5, h6, h7⟩ := handle_symbol_spec st t st' h
      exact ⟨h1, by omega, h4, h5, h6, h7, Or.inl h2⟩
  · rw [if_neg ha] at h
    obtain ⟨h1, h2, h3, h4, h5, h6, h7⟩ := handle_symbol_spec st t st' h
    exact ⟨h1, by omega, h4, h5, h6, h7, Or.inl h2⟩

theorem get?_some_lt {l : List Char} {n : Nat} {c : Char}
    (h : l.get? n = some c) : n < l.length := by
  rcases List.get?_eq_some.mp h with ⟨hlt, -⟩
  exact hlt

theorem handle_whitespace_input (st : Lexer) :
    st.handle_whitespace.input = st.input := (handle_whitespace_spec st).1

theorem handle_whitespace_pos (st : Lexer) :
    st.handle_whitespace.current_position = st.current_position :=
  (handle_whitespace_spec st).2.1

theorem advanceOne_input (st : Lexer) : st.advanceOne.input = st.input :=
  (advanceOne_spec st).1

theorem advanceOne_pos_ge (st : Lexer) :
    st.current_position ≤ st.advanceOne.current_position :=
  (advanceOne_spec st).2.2.2.2.2.1

theorem handle_whitespace_pos1 (st : Lexer) :
    st.current_position + 1 ≤
      ({ st with current_position := st.current_position + 1 } :
        Lexer).handle_whitespace.current_position :=
  le_of_eq
    (handle_whitespace_pos
      ({ st with current_position := st.current_position + 1 } : Lexer)).symm

theorem advanceOne_pos1 (st : Lexer) :
    st.current_position + 1 ≤
      ({ st with current_position := st.current_position + 1 } :
        Lexer).advanceOne.current_position :=
  advanceOne_pos_ge
    ({ st with current_position := st.current_position + 1 } : Lexer)

/-- One `next_token` call always succeeds with fuel exceeding the
remaining input: every loop iteration consumes at least one character. -/
theorem nextTokenF_isSome : ∀ (fuel : Nat) (st : Lexer),
    st.input.length - st.current_position < fuel →
    (nextTokenF fuel st).isSome = true := by
  intro fuel
  induction fuel with
  | zero => intro st h; omega
  | succ n ih =>
    intro st h
    cases hg : st.input.get? st.current_position with
    | none =>
      rw [nextTokenF]
      simp only [hg]
      split_ifs <;> simp
    | some ch =>
      have hlt : st.current_position < st.input.length := get?_some_lt hg
      have key : ∀ X : Lexer, X.input = st.input →
          st.current_position + 1 ≤ X.current_position →
          X.input.length - X.current_position < n := by
        intro X h1 h2; rw [h1]; omega
      rw [nextTokenF]
      simp only [hg]
      split_ifs <;> try simp only [Option.isSome_some]
      all_goals try (split <;> try simp only [Option.isSome_some])
      all_goals apply ih
      all_goals
        exact key _
          (by first
            | rfl
            | exact handle_whitespace_input _
            | exact advanceOne_input _)
          (by first
            | exact le_refl _
            | exact handle_whitespace_pos1 _
            | exact advanceOne_pos1 _)

/-- Fuel monotonicity of the `next_token` loop. -/
theorem nextTokenF_mono : ∀ (fuel fuel' : Nat) (st : Lexer) (r : Token × Lexer),
    fuel ≤ fuel' → nextTokenF fuel st = some r → nextTokenF fuel' st = some r := by
  intro fuel
  induction fuel with
  | zero => intro fuel' st r _ h; simp [nextTokenF] at h
  | succ n ih =>
    intro fuel' st r hle h
    obtain ⟨m, rfl⟩ : ∃ m, fuel' = m + 1 :=
      ⟨fuel' - 1, by omega⟩
    have hnm : n ≤ m := by omega
    cases hg : st.input.get? st.current_position with
    | none =>
      rw [nextTokenF] at h ⊢
      simp only [hg] at h ⊢
      exact h
    | some ch =>
      rw [nextTokenF] at h ⊢
      simp only [hg] at h ⊢
      split_ifs at h ⊢
      all_goals try exact h
      all_goals try exact ih m _ r hnm h
      all_goals
        (split at h <;> rename_i heq <;> (try simp only [heq]) <;>
          first
            | exact h
            | exact ih m _ r hnm h)

/-- `nextToken` agrees with the fueled loop at the canonical fuel. -/
theorem nextToken_eq (st : Lexer) :
    nextTokenF st.lexFuel st = some st.nextToken := by
  have h := nextTokenF_isSome st.lexFuel st (by unfold lexFuel; omega)
  unfold nextToken
  cases hr : nextTokenF st.lexFuel st with
  | none => rw [hr] at h; simp at h
  | some r => simp

/-- Any sufficient fuel computes `nextToken`. -/
theorem nextTokenF_eq_nextToken (fuel : Nat) (st : Lexer)
    (h : st.input.length - st.current_position < fuel) :
    nextTokenF fuel st = some st.nextToken := by
  rcases Nat.le_total fuel st.lexFuel with h1 | h1
  · have hs := nextTokenF_isSome fuel st h
    cases hr : nextTokenF fuel st with
    | none => rw [hr] at hs; simp at hs
    | some r =>
      have h2 := nextTokenF_mono fuel st.lexFuel st r h1 hr
      have h3 := nextToken_eq st
      rw [h2] at h3
      exact h3
  · exact nextTokenF_mono st.lexFuel fuel st _ h1 (nextToken_eq st)

/-- Count of open literal modes. -/
def flagsCount (st : Lexer) : Nat :=
  (if st.is_parsing_string then 1 else 0) + (if st.is_parsing_rune then 1 else 0)

/-- Termination measure for the scan: remaining characters (twice), open
literal modes, and the pending-lexeme indicator. -/
def lexMeasure (st : Lexer) : Nat :=
  2 * (st.input.length - st.current_position) + flagsCount st +
    (if st.anchor < st.current_position then 1 else 0)

theorem fromStr_nil : TokenKind.fromStr [] = none := by decide

theorem fromStr_ne_EOF (v : List Char) : TokenKind.fromStr v ≠ some .EOF := by
  unfold TokenKind.fromStr
  split
  · simp
  · cases hl : TokenKind.tableLookup v with
    | none =>
      simp only [hl]
      split_ifs <;> simp
    | some k =>
      have hk : k ≠ TokenKind.EOF := by
        unfold TokenKind.tableLookup at hl
        cases hf : List.find? (fun p => p.1 == v) TokenKind.fixedTable with
        | none => rw [hf] at hl; simp at hl
        | some p =>
          rw [hf] at hl
          simp only [Option.map_some'] at hl
          have hmem := List.mem_of_find?_eq_some hf
          have : ∀ q ∈ TokenKind.fixedTable, q.2 ≠ TokenKind.EOF := by decide
          rw [← Option.some.inj hl]
          exact this p hmem
      simp only [hl]
      simpa using hk

theorem Token_new_kind (v : List Char) (p : Position) :
    (Token.new v p).kind = TokenKind.fromStr v := rfl

theorem tokenize_ok_some (st : Lexer) (v : List Char) (tok : Token)
    (h : st.tokenize v = .ok (some tok)) :
    tok = Token.new v st.current_token_position := by
  unfold tokenize at h
  cases hf : TokenKind.fromStr v with
  | none =>
    simp only [hf] at h
    split_ifs at h <;> simp at h
  | some k =>
    simp only [hf] at h
    cases hp : st.peekChar with
    | none => simp only [hp, Except.ok.injEq, Option.some.injEq] at h; exact h.symm
    | some c =>
      simp only [hp] at h
      split_ifs at h
      · simp at h
      · simp only [Except.ok.injEq, Option.some.injEq] at h
        exact h.symm

/-- Every classified token emitted by `handle_word` carries exactly the
source slice recorded in its position. -/
theorem handle_word_value (st : Lexer) (t : Token) (st' : Lexer)
    (h : st.handle_word = some (t, st')) :
    t.kind ≠ some .EOF ∧
    (∀ k, t.kind = some k →
      t.value = slice st.input t.position.column_start t.position.column_end) := by
  unfold handle_word at h
  rcases htok : st.tokenize (st.proposed_token false) with e | o
  · simp only [htok, Option.some.injEq, Prod.mk.injEq] at h
    obtain ⟨h1, -⟩ := h
    subst h1
    constructor
    · simp [Token.new, fromStr_nil]
    · intro k hk
      rw [Token_new_kind, fromStr_nil] at hk
      simp at hk
  · cases o with
    | none => simp [htok] at h
    | some tok =>
      cases hk : tok.kind with
      | none => simp [htok, hk] at h
      | some k0 =>
        simp only [htok, hk, Option.some.injEq, Prod.mk.injEq] at h
        obtain ⟨h1, -⟩ := h
        subst h1
        have he := tokenize_ok_some st (st.proposed_token false) tok htok
        subst he
        constructor
        · rw [Token_new_kind]
          exact fromStr_ne_EOF _
        · intro k hk2
          simp [Token.new, proposed_token, current_token_position, Position.new]

theorem handle_symbol_value (st : Lexer) (t : Token) (st' : Lexer)
    (h : st.handle_symbol = some (t, st')) :
    t.kind ≠ some .EOF ∧
    (∀ k, t.kind = some k →
      t.value = slice st.input t.position.column_start t.position.column_end) := by
  unfold handle_symbol at h
  rcases htok : st.tokenize (st.proposed_token false) with e | o
  · simp only [htok, Option.some.injEq, Prod.mk.injEq] at h
    obtain ⟨h1, -⟩ := h
    subst h1
    constructor
    · simp [Token.new, fromStr_nil]
    · intro k hk
      rw [Token_new_kind, fromStr_nil] at hk
      simp at hk
  · cases o with
    | none => simp [htok] at h
    | some tok =>
      simp only [htok, Option.some.injEq, Prod.mk.injEq] at h
      obtain ⟨h1, -⟩ := h
      subst h1
      have he := tokenize_ok_some st (st.proposed_token false) tok htok
      subst he
      constructor
      · rw [Token_new_kind]
        exact fromStr_ne_EOF _
      · intro k hk2
        simp [Token.new, proposed_token, current_token_position, Position.new]

theorem handle_symbol_char_value (st : Lexer) (t : Token) (st' : Lexer)
    (h : st.handle_symbol_char = some (t, st')) :
    t.kind ≠ some .EOF ∧
    (∀ k, t.kind = some k →
      t.value = slice st.input t.position.column_start t.position.column_end) := by
  simp only [handle_symbol_char] at h
  by_cases ha : st.anchor < st.current_position - 1
  · rw [if_pos ha] at h
    by_cases hp : (!(slice st.input st.anchor (st.current_position - 1)).all is_symbol) = true
    · rw [if_pos hp] at h
      rcases hf : TokenKind.fromStr (slice st.input st.anchor (st.current_position - 1)) with - | k
      · simp only [hf, Option.some.injEq, Prod.mk.injEq] at h
        obtain ⟨h1, -⟩ := h
        subst h1
        constructor
        · simp [Token.new, fromStr_nil]
        · intro k hk
          rw [Token_new_kind, fromStr_nil] at hk
          simp at hk
      · simp only [hf, Option.some.injEq, Prod.mk.injEq] at h
        obtain ⟨h1, -⟩ := h
        subst h1
        constructor
        · rw [Token_new_kind]
          exact fromStr_ne_EOF _
        · intro k2 hk2
          simp [Token.new, Position.new]
    · rw [if_neg hp] at h
      exact handle_symbol_value st t st' h
  · rw [if_neg ha] at h
    exact handle_symbol_value st t st' h

theorem bool_false_of_not_true {b : Bool} (h : ¬ b = true) : b = false := by
  cases b
  · rfl
  · exact absurd rfl h

/-- Main structural facts about one `next_token` call: the input is
unchanged, errors are only appended, an `EOF` result means the scan is
exhausted with no literal mode open and no new error, a non-`EOF` result
strictly decreases the scan measure, and every classified token's value
is the source slice recorded in its position. -/
theorem nextTokenF_main : ∀ (fuel : Nat) (st : Lexer) (t : Token) (st' : Lexer),
    nextTokenF fuel st = some (t, st') →
    st'.input = st.input ∧
    st.errors <+: st'.errors ∧
    (t.kind = some .EOF →
      st'.errors = st.errors ∧ st'.is_parsing_string = false ∧
      st'.is_parsing_rune = false ∧ st'.input.length ≤ st'.current_position ∧
      lexMeasure st' ≤ lexMeasure st) ∧
    (t.kind ≠ some .EOF → lexMeasure st' < lexMeasure st) ∧
    (∀ k, t.kind = some k → k ≠ .EOF →
      t.value = slice st.input t.position.column_start t.position.column_end) := by
  intro fuel
  induction fuel with
  | zero => intro st t st' h; simp [nextTokenF] at h
  | succ n ih =>
    intro st t st' h
    rw [nextTokenF] at h
    cases hg : st.input.get? st.current_position with
    | none =>
      have hlen : st.input.length ≤ st.current_position := List.get?_eq_none.mp hg
      simp only [hg] at h
      by_cases c1 : st.is_parsing_string = true
      · rw [if_pos c1] at h
        simp only [Option.some.injEq, Prod.mk.injEq] at h
        obtain ⟨h1, h2⟩ := h
        subst h1; subst h2
        refine ⟨rfl, List.prefix_append _ _, ?_, ?_, ?_⟩
        · intro habs
          simp [Token.new, Token_new_kind, TokenKind.fromStr] at habs
        · intro _
          simp only [lexMeasure, flagsCount]
          dsimp only
          simp [c1]
          try split_ifs
          all_goals omega
        · intro k hk hkne
          rw [Token_new_kind, fromStr_nil] at hk
          simp at hk
      · rw [if_neg c1] at h
        by_cases c2 : st.is_parsing_rune = true
        · rw [if_pos c2] at h
          simp only [Option.some.injEq, Prod.mk.injEq] at h
          obtain ⟨h1, h2⟩ := h
          subst h1; subst h2
          refine ⟨rfl, List.prefix_append _ _, ?_, ?_, ?_⟩
          · intro habs
            simp [Token.new, Token_new_kind, TokenKind.fromStr] at habs
          · intro _
            simp only [lexMeasure, flagsCount]
            dsimp only
            simp [c2]
            try split_ifs
            all_goals omega
          · intro k hk hkne
            rw [Token_new_kind, fromStr_nil] at hk
            simp at hk
        · rw [if_neg c2] at h
          simp only [Option.some.injEq, Prod.mk.injEq] at h
          obtain ⟨h1, h2⟩ := h
          subst h1; subst h2
          refine ⟨rfl, List.prefix_refl _, ?_, ?_, ?_⟩
          · intro _
            exact ⟨rfl, bool_false_of_not_true c1, bool_false_of_not_true c2,
              hlen, le_refl _⟩
          · intro hne
            exact absurd rfl hne
          · intro k hk hkne
            simp only [Token.newWithKind, Option.some.injEq] at hk
            exact absurd hk.symm hkne
    | some ch =>
      have hlt : st.current_position < st.input.length := get?_some_lt hg
      simp only [hg] at h
      by_cases c1 : (is_whitespace ch && !st.is_parsing_string && !st.is_parsing_rune) = true
      · -- whitespace outside literals: recurse
        rw [if_pos c1] at h
        obtain ⟨⟨cw, cs⟩, cr⟩ : (is_whitespace ch = true ∧
            st.is_parsing_string = false) ∧ st.is_parsing_rune = false := by
          simpa [Bool.and_eq_true] using c1
        obtain ⟨A, B, C, E, D⟩ := ih _ _ _ h
        obtain ⟨w1, w2, w3, w4, w5, w6⟩ :=
          handle_whitespace_spec { st with current_position := st.current_position + 1 }
        dsimp only at w1 w2 w3 w4 w5 w6
        have hin : ({ st with current_position := st.current_position + 1 } :
            Lexer).handle_whitespace.input = st.input := w1
        have herr : ({ st with current_position := st.current_position + 1 } :
            Lexer).handle_whitespace.errors = st.errors := w4
        have hm2 : lexMeasure ({ st with current_position := st.current_position + 1 } :
            Lexer).handle_whitespace ≤ lexMeasure st := by
          simp only [lexMeasure, flagsCount, w1, w2, w3, w5, w6]
          split_ifs <;> omega
        refine ⟨by rw [A, hin], ?_, ?_, ?_, ?_⟩
        · rw [← herr]; exact B
        · intro hEOF
          obtain ⟨e1, e2, e3, e4, e5⟩ := C hEOF
          exact ⟨by rw [e1, herr], e2, e3, e4, le_trans e5 hm2⟩
        · intro hne
          exact lt_of_lt_of_le (E hne) hm2
        · intro k hk hkne
          rw [D k hk hkne, hin]
      · rw [if_neg c1] at h
        by_cases c2 : (is_whitespace ch && st.is_parsing_rune) = true
        · -- whitespace while a rune is open: unterminated-rune error
          rw [if_pos c2] at h
          obtain ⟨cw, cr⟩ : is_whitespace ch = true ∧ st.is_parsing_rune = true := by
            simpa [Bool.and_eq_true] using c2
          simp only [Option.some.injEq, Prod.mk.injEq] at h
          obtain ⟨h1, h2⟩ := h
          subst h1; subst h2
          refine ⟨rfl, List.prefix_append _ _, ?_, ?_, ?_⟩
          · intro habs
            simp [Token.new, Token_new_kind, TokenKind.fromStr] at habs
          · intro _
            simp only [lexMeasure, flagsCount]
            dsimp only
            simp [cr]
            try split_ifs
            all_goals omega
          · intro k hk hkne
            rw [Token_new_kind, fromStr_nil] at hk
            simp at hk
        · rw [if_neg c2] at h
          by_cases c3 : ch = '"'
          · rw [if_pos c3] at h
            by_cases c4 : st.is_parsing_string = true
            · -- closing quote: finalize the string literal
              rw [if_pos c4] at h
              simp only [finalize_string, Option.some.injEq, Prod.mk.injEq] at h
              obtain ⟨h1, h2⟩ := h
              subst h1; subst h2
              refine ⟨rfl, List.prefix_refl _, ?_, ?_, ?_⟩
              · intro habs
                simp [Token.newWithKind] at habs
              · intro _
                simp only [lexMeasure, flagsCount]
                dsimp only
                simp [c4]
                try split_ifs
                all_goals omega
              · intro k hk hkne
                rfl
            · -- opening quote: enter string mode and recurse
              rw [if_neg c4] at h
              have cs := bool_false_of_not_true c4
              obtain ⟨A, B, C, E, D⟩ := ih _ _ _ h
              have hm2 : lexMeasure
                  ({ input := st.input, current_position := st.current_position + 1,
                     anchor := st.current_position + 1 - 1, errors := st.errors,
                     is_parsing_string := true, is_parsing_rune := st.is_parsing_rune,
                     newline_before_current_token := st.newline_before_current_token } :
                    Lexer) ≤ lexMeasure st := by
                simp only [lexMeasure, flagsCount]
                dsimp only
                simp [cs]
                try split_ifs
                all_goals omega
              refine ⟨by rw [A], ?_, ?_, ?_, ?_⟩
              · exact B
              · intro hEOF
                obtain ⟨e1, e2, e3, e4, e5⟩ := C hEOF
                exact ⟨e1, e2, e3, e4, le_trans e5 hm2⟩
              · intro hne
                exact lt_of_lt_of_le (E hne) hm2
              · intro k hk hkne
                rw [D k hk hkne]
          · rw [if_neg c3] at h
            by_cases c5 : ch = '\''
            · rw [if_pos c5] at h
              by_cases c6 : st.is_parsing_rune = true
              · -- closing quote: finalize the rune literal
                rw [if_pos c6] at h
                simp only [finalize_rune, Option.some.injEq, Prod.mk.injEq] at h
                obtain ⟨h1, h2⟩ := h
                subst h1; subst h2
                refine ⟨rfl, List.prefix_refl _, ?_, ?_, ?_⟩
                · intro habs
                  simp [Token.newWithKind] at habs
                · intro _
                  simp only [lexMeasure, flagsCount]
                  dsimp only
                  simp [c6]
                  try split_ifs
                  all_goals omega
                · intro k hk hkne
                  rfl
              · -- opening quote: enter rune mode and recurse
                rw [if_neg c6] at h
                have cr := bool_false_of_not_true c6
                obtain ⟨A, B, C, E, D⟩ := ih _ _ _ h
                have hm2 : lexMeasure
                    ({ input := st.input, current_position := st.current_position + 1,
                       anchor := st.current_position + 1 - 1, errors := st.errors,
                       is_parsing_string := st.is_parsing_string, is_parsing_rune := true,
                       newline_before_current_token := st.newline_before_current_token } :
                      Lexer) ≤ lexMeasure st := by
                  simp only [lexMeasure, flagsCount]
                  dsimp only
                  simp [cr]
                  try split_ifs
                  all_goals omega
                refine ⟨by rw [A], ?_, ?_, ?_, ?_⟩
                · exact B
                · intro hEOF
                  obtain ⟨e1, e2, e3, e4, e5⟩ := C hEOF
                  exact ⟨e1, e2, e3, e4, le_trans e5 hm2⟩
                · intro hne
                  exact lt_of_lt_of_le (E hne) hm2
                · intro k hk hkne
                  rw [D k hk hkne]
            · rw [if_neg c5] at h
              by_cases c7 : st.is_parsing_string = true
              · -- string content (with or without escape): recurse
                rw [if_pos c7] at h
                have hstep : ∀ st2 : Lexer, nextTokenF n st2 = some (t, st') →
                    st2.input = st.input → st2.errors = st.errors →
                    lexMeasure st2 ≤ lexMeasure st →
                    st'.input = st.input ∧
                    st.errors <+: st'.errors ∧
                    (t.kind = some .EOF →
                      st'.errors = st.errors ∧ st'.is_parsing_string = false ∧
                      st'.is_parsing_rune = false ∧
                      st'.input.length ≤ st'.current_position ∧
                      lexMeasure st' ≤ lexMeasure st) ∧
                    (t.kind ≠ some .EOF → lexMeasure st' < lexMeasure st) ∧
                    (∀ k, t.kind = some k → k ≠ .EOF →
                      t.value = slice st.input t.position.column_start
                        t.position.column_end) := by
                  intro st2 h2 hin herr hm2
                  obtain ⟨A, B, C, E, D⟩ := ih _ _ _ h2
                  refine ⟨by rw [A, hin], by rw [← herr]; exact B, ?_, ?_, ?_⟩
                  · intro hEOF
                    obtain ⟨e1, e2, e3, e4, e5⟩ := C hEOF
                    exact ⟨by rw [e1, herr], e2, e3, e4, le_trans e5 hm2⟩
                  · intro hne
                    exact lt_of_lt_of_le (E hne) hm2
                  · intro k hk hkne
                    rw [D k hk hkne, hin]
                by_cases c8 : ch = '\\'
                · rw [if_pos c8] at h
                  obtain ⟨a1, a2, a3, a4, a5, a6, a7⟩ :=
                    advanceOne_spec { st with current_position := st.current_position + 1 }
                  dsimp only at a1 a2 a3 a4 a5 a6 a7
                  refine hstep _ h a1 a3 ?_
                  simp only [lexMeasure, flagsCount, a1, a2, a4, a5]
                  split_ifs <;> omega
                · rw [if_neg c8] at h
                  refine hstep _ h rfl rfl ?_
                  simp only [lexMeasure, flagsCount]
                  dsimp only
                  split_ifs <;> omega
              · rw [if_neg c7] at h
                have cs := bool_false_of_not_true c7
                by_cases c9 : st.is_parsing_rune = true
                · -- rune content (with or without escape): recurse
                  rw [if_pos c9] at h
                  have hstep : ∀ st2 : Lexer, nextTokenF n st2 = some (t, st') →
                      st2.input = st.input → st2.errors = st.errors →
                      lexMeasure st2 ≤ lexMeasure st →
                      st'.input = st.input ∧
                      st.errors <+: st'.errors ∧
                      (t.kind = some .EOF →
                        st'.errors = st.errors ∧ st'.is_parsing_string = false ∧
                        st'.is_parsing_rune = false ∧
                        st'.input.length ≤ st'.current_position ∧
                        lexMeasure st' ≤ lexMeasure st) ∧
                      (t.kind ≠ some .EOF → lexMeasure st' < lexMeasure st) ∧
                      (∀ k, t.kind = some k → k ≠ .EOF →
                        t.value = slice st.input t.position.column_start
                          t.position.column_end) := by
                    intro st2 h2 hin herr hm2
                    obtain ⟨A, B, C, E, D⟩ := ih _ _ _ h2
                    refine ⟨by rw [A, hin], by rw [← herr]; exact B, ?_, ?_, ?_⟩
                    · intro hEOF
                      obtain ⟨e1, e2, e3, e4, e5⟩ := C hEOF
                      exact ⟨by rw [e1, herr], e2, e3, e4, le_trans e5 hm2⟩
                    · intro hne
                      exact lt_of_lt_of_le (E hne) hm2
                    · intro k hk hkne
                      rw [D k hk hkne, hin]
                  by_cases c10 : ch = '\\'
                  · rw [if_pos c10] at h
                    obtain ⟨a1, a2, a3, a4, a5, a6, a7⟩ :=
                      advanceOne_spec { st with current_position := st.current_position + 1 }
                    dsimp only at a1 a2 a3 a4 a5 a6 a7
                    refine hstep _ h a1 a3 ?_
                    simp only [lexMeasure, flagsCount, a1, a2, a4, a5]
                    split_ifs <;> omega
                  · rw [if_neg c10] at h
                    refine hstep _ h rfl rfl ?_
                    simp only [lexMeasure, flagsCount]
                    dsimp only
                    split_ifs <;> omega
                · rw [if_neg c9] at h
                  have cr := bool_false_of_not_true c9
                  -- symbol or word: a helper may emit a token or ask to continue
                  have hexit : ∀ (handler : Lexer → Option (Token × Lexer)),
                      (∀ s a b, handler s = some (a, b) →
                        b.input = s.input ∧ b.anchor = b.current_position ∧
                        b.is_parsing_string = s.is_parsing_string ∧
                        b.is_parsing_rune = s.is_parsing_rune ∧
                        b.newline_before_current_token = s.newline_before_current_token ∧
                        (b.errors = s.errors ∨ ∃ e, b.errors = s.errors ++ [e]) ∧
                        (b.current_position = s.current_position ∨
                          (b.current_position = s.current_position - 1 ∧
                            s.anchor < s.current_position - 1))) →
                      (∀ s a b, handler s = some (a, b) →
                        a.kind ≠ some .EOF ∧
                        (∀ k, a.kind = some k →
                          a.value = slice s.input a.position.column_start
                            a.position.column_end)) →
                      handler { st with current_position := st.current_position + 1 } =
                        some (t, st') →
                      st'.input = st.input ∧
                      st.errors <+: st'.errors ∧
                      (t.kind = some .EOF →
                        st'.errors = st.errors ∧ st'.is_parsing_string = false ∧
                        st'.is_parsing_rune = false ∧
                        st'.input.length ≤ st'.current_position ∧
                        lexMeasure st' ≤ lexMeasure st) ∧
                      (t.kind ≠ some .EOF → lexMeasure st' < lexMeasure st) ∧
                      (∀ k, t.kind = some k → k ≠ .EOF →
                        t.value = slice st.input t.position.column_start
                          t.position.column_end) := by
                    intro handler hspec hval heq
                    obtain ⟨s1, s2, s3, s4, sn, s5, s6⟩ := hspec _ _ _ heq
                    obtain ⟨v1, v2⟩ := hval _ _ _ heq
                    dsimp only at s1 s3 s4 s5 s6
                    refine ⟨s1, ?_, ?_, ?_, ?_⟩
                    · rcases s5 with h5 | ⟨e, h5⟩
                      · rw [h5]
                      · rw [h5]; exact List.prefix_append _ _
                    · intro hEOF
                      exact absurd hEOF v1
                    · intro _
                      rcases s6 with h6 | ⟨h6, h7⟩ <;>
                        (simp only [lexMeasure, flagsCount, s1, s2, h6, s3, s4];
                          split_ifs <;> omega)
                    · intro k hk hkne
                      rw [v2 k hk]
                  by_cases c11 : is_symbol ch = true
                  · rw [if_pos c11] at h
                    cases hsc : ({ st with current_position := st.current_position + 1 } :
                        Lexer).handle_symbol_char with
                    | some r =>
                      rw [hsc] at h
                      simp only [Option.some.injEq] at h
                      subst h
                      exact hexit handle_symbol_char
                        (fun s a b hs => handle_symbol_char_spec s a b hs)
                        (fun s a b hs => handle_symbol_char_value s a b hs)
                        hsc
                    | none =>
                      rw [hsc] at h
                      obtain ⟨A, B, C, E, D⟩ := ih _ _ _ h
                      have hm2 : lexMeasure ({ st with
                          current_position := st.current_position + 1 } : Lexer) ≤
                          lexMeasure st := by
                        simp only [lexMeasure, flagsCount]
                        dsimp only
                        split_ifs <;> omega
                      refine ⟨by rw [A], B, ?_, ?_, ?_⟩
                      · intro hEOF
                        obtain ⟨e1, e2, e3, e4, e5⟩ := C hEOF
                        exact ⟨e1, e2, e3, e4, le_trans e5 hm2⟩
                      · intro hne
                        exact lt_of_lt_of_le (E hne) hm2
                      · intro k hk hkne
                        rw [D k hk hkne]
                  · rw [if_neg c11] at h
                    cases hsc : ({ st with current_position := st.current_position + 1 } :
                        Lexer).handle_word with
                    | some r =>
                      rw [hsc] at h
                      simp only [Option.some.injEq] at h
                      subst h
                      refine hexit handle_word
                        (fun s a b hs => ?_)
                        (fun s a b hs => handle_word_value s a b hs)
                        hsc
                      obtain ⟨w1, w2, w3, w4, w5, w6, w7⟩ := handle_word_spec s a b hs
                      exact ⟨w1, by rw [w3, w2], w4, w5, w6, w7, Or.inl w2⟩
                    | none =>
                      rw [hsc] at h
                      obtain ⟨A, B, C, E, D⟩ := ih _ _ _ h
                      have hm2 : lexMeasure ({ st with
                          current_position := st.current_position + 1 } : Lexer) ≤
                          lexMeasure st := by
                        simp only [lexMeasure, flagsCount]
                        dsimp only
                        split_ifs <;> omega
                      refine ⟨by rw [A], B, ?_, ?_, ?_⟩
                      · intro hEOF
                        obtain ⟨e1, e2, e3, e4, e5⟩ := C hEOF
                        exact ⟨e1, e2, e3, e4, le_trans e5 hm2⟩
                      · intro hne
                        exact lt_of_lt_of_le (E hne) hm2
                      · intro k hk hkne
                        rw [D k hk hkne]

/-- The structural facts transported to the total `nextToken`. -/
theorem nextToken_facts (st : Lexer) :
    (st.nextToken).2.input = st.input ∧
    st.errors <+: (st.nextToken).2.errors ∧
    ((st.nextToken).1.kind = some .EOF →
      (st.nextToken).2.errors = st.errors ∧
      (st.nextToken).2.is_parsing_string = false ∧
      (st.nextToken).2.is_parsing_rune = false ∧
      (st.nextToken).2.input.length ≤ (st.nextToken).2.current_position ∧
      lexMeasure (st.nextToken).2 ≤ lexMeasure st) ∧
    ((st.nextToken).1.kind ≠ some .EOF →
      lexMeasure (st.nextToken).2 < lexMeasure st) ∧
    (∀ k, (st.nextToken).1.kind = some k → k ≠ .EOF →
      (st.nextToken).1.value =
        slice st.input (st.nextToken).1.position.column_start
          (st.nextToken).1.position.column_end) := by
  have h := nextToken_eq st
  have h2 : nextTokenF st.lexFuel st = some ((st.nextToken).1, (st.nextToken).2) := by
    rw [h]
  exact nextTokenF_main st.lexFuel st (st.nextToken).1 (st.nextToken).2 h2

/-- With the scan exhausted and no literal open, `next_token` returns
`EOF` and leaves the state untouched. -/
theorem nextToken_at_end (st : Lexer)
    (h1 : st.input.length ≤ st.current_position)
    (h2 : st.is_parsing_string = false) (h3 : st.is_parsing_rune = false) :
    st.nextToken = (Token.newWithKind .EOF [] st.current_token_position, st) := by
  have hg : st.input.get? st.current_position = none := List.get?_eq_none.mpr h1
  have hF : nextTokenF st.lexFuel st =
      some (Token.newWithKind .EOF [] st.current_token_position, st) := by
    show nextTokenF (st.input.length - st.current_position + 1) st = _
    rw [nextTokenF]
    simp only [hg]
    simp [h2, h3]
  have h := nextToken_eq st
  rw [hF] at h
  exact (Option.some.inj h).symm

/-- `EOF` is absorbing at the tokenizer interface: after an `EOF`
result, every further call returns `EOF` again, with the state (hence
the error list) unchanged. -/
theorem nextToken_EOF_absorb (st : Lexer) (t : Token) (st' : Lexer)
    (h : st.nextToken = (t, st')) (hEOF : t.kind = some .EOF) :
    st'.nextToken = (Token.newWithKind .EOF [] st'.current_token_position, st') := by
  obtain ⟨-, -, C, -, -⟩ := nextToken_facts st
  rw [h] at C
  obtain ⟨-, e2, e3, e4, -⟩ := C hEOF
  exact nextToken_at_end st' e4 e2 e3

/-- Scanning from any state reaches `EOF` within `lexMeasure` calls. -/
theorem scanGo_reaches : ∀ (fuel : Nat) (st : Lexer), lexMeasure st < fuel →
    ((scanGo fuel st).1.getLast?.map Token.kind) = some (some .EOF) := by
  intro fuel
  induction fuel with
  | zero => intro st h; omega
  | succ n ih =>
    intro st h
    rw [scanGo]
    obtain ⟨F1, F2, F3, F4, F5⟩ := nextToken_facts st
    cases ht : st.nextToken with
    | mk t st' =>
      rw [ht] at F4
      dsimp only
      by_cases hk : t.kind = some .EOF
      · rw [if_pos hk]
        simp [hk]
      · rw [if_neg hk]
        have hm : lexMeasure st' < lexMeasure st := F4 hk
        have hIH := ih st' (by omega)
        cases hsg : scanGo n st' with
        | mk ts st'' =>
          rw [hsg] at hIH
          dsimp only
          dsimp only at hIH
          cases ts with
          | nil => simp at hIH
          | cons a as =>
            rw [List.getLast?_cons_cons]
            exact hIH

/-! ### Frame lemmas: the error list and the newline flag never influence
which token is produced; they are only written to.  Used to justify that
`peek_tokens` leaves the token stream unchanged. -/

theorem tokenize_frame (st : Lexer) (E : List LexerError) (N : Bool) (v : List Char) :
    Lexer.tokenize { st with errors := E, newline_before_current_token := N } v =
      st.tokenize v := rfl

theorem proposed_token_frame (st : Lexer) (E : List LexerError) (N : Bool) (b : Bool) :
    Lexer.proposed_token { st with errors := E, newline_before_current_token := N } b =
      st.proposed_token b := rfl

theorem handle_whitespace_frame (st : Lexer) (E : List LexerError) (N : Bool) :
    ∃ N', Lexer.handle_whitespace { st with errors := E, newline_before_current_token := N } =
      { st.handle_whitespace with errors := E, newline_before_current_token := N' } := by
  unfold handle_whitespace
  dsimp only
  cases h : st.input.get? (st.current_position - 1) with
  | none => exact ⟨N, by simp⟩
  | some c =>
    by_cases hc : c = '\n'
    · exact ⟨true, by simp [hc]⟩
    · exact ⟨N, by simp [hc]⟩

theorem advanceOne_frame (st : Lexer) (E : List LexerError) (N : Bool) :
    Lexer.advanceOne { st with errors := E, newline_before_current_token := N } =
      { st.advanceOne with errors := E, newline_before_current_token := N } := by
  unfold advanceOne
  dsimp only
  cases h : st.input.get? st.current_position with
  | none => simp
  | some c => simp

theorem handle_word_frame (st : Lexer) (E : List LexerError) (N : Bool) :
    (st.handle_word = none →
      Lexer.handle_word { st with errors := E, newline_before_current_token := N } = none) ∧
    (∀ t s', st.handle_word = some (t, s') →
      ∃ E', Lexer.handle_word { st with errors := E, newline_before_current_token := N } =
        some (t, { s' with errors := E', newline_before_current_token := N })) := by
  unfold handle_word
  have hconv : Lexer.tokenize { st with errors := E, newline_before_current_token := N }
      (Lexer.proposed_token { st with errors := E, newline_before_current_token := N } false) =
      st.tokenize (st.proposed_token false) := rfl
  rw [hconv]
  rcases htok : st.tokenize (st.proposed_token false) with e | o
  · refine ⟨by simp, ?_⟩
    intro t s' h
    dsimp only at h ⊢
    simp only [Option.some.injEq, Prod.mk.injEq] at h
    obtain ⟨h1, h2⟩ := h
    subst h1; subst h2
    exact ⟨E ++ [e], rfl⟩
  · cases o with
    | none => exact ⟨fun _ => rfl, by simp⟩
    | some tok =>
      cases hk : tok.kind with
      | none => exact ⟨fun _ => by simp [hk], by simp [hk]⟩
      | some k =>
        refine ⟨by simp [hk], ?_⟩
        intro t s' h
        simp only [hk, Option.some.injEq, Prod.mk.injEq] at h ⊢
        obtain ⟨h1, h2⟩ := h
        subst h1; subst h2
        exact ⟨E, ⟨rfl, rfl⟩⟩

theorem handle_symbol_frame (st : Lexer) (E : List LexerError) (N : Bool) :
    (st.handle_symbol = none →
      Lexer.handle_symbol { st with errors := E, newline_before_current_token := N } = none) ∧
    (∀ t s', st.handle_symbol = some (t, s') →
      ∃ E', Lexer.handle_symbol { st with errors := E, newline_before_current_token := N } =
        some (t, { s' with errors := E', newline_before_current_token := N })) := by
  unfold handle_symbol
  have hconv : Lexer.tokenize { st with errors := E, newline_before_current_token := N }
      (Lexer.proposed_token { st with errors := E, newline_before_current_token := N } false) =
      st.tokenize (st.proposed_token false) := rfl
  rw [hconv]
  rcases htok : st.tokenize (st.proposed_token false) with e | o
  · refine ⟨by simp, ?_⟩
    intro t s' h
    dsimp only at h ⊢
    simp only [Option.some.injEq, Prod.mk.injEq] at h
    obtain ⟨h1, h2⟩ := h
    subst h1; subst h2
    exact ⟨E ++ [e], rfl⟩
  · cases o with
    | none => exact ⟨fun _ => rfl, by simp⟩
    | some tok =>
      refine ⟨by simp, ?_⟩
      intro t s' h
      simp only [Option.some.injEq, Prod.mk.injEq] at h ⊢
      obtain ⟨h1, h2⟩ := h
      subst h1; subst h2
      exact ⟨E, ⟨rfl, rfl⟩⟩

theorem handle_symbol_char_frame (st : Lexer) (E : List LexerError) (N : Bool) :
    (st.handle_symbol_char = none →
      Lexer.handle_symbol_char
        { st with errors := E, newline_before_current_token := N } = none) ∧
    (∀ t s', st.handle_symbol_char = some (t, s') →
      ∃ E', Lexer.handle_symbol_char
          { st with errors := E, newline_before_current_token := N } =
        some (t, { s' with errors := E', newline_before_current_token := N })) := by
  unfold handle_symbol_char
  dsimp only
  by_cases ha : st.anchor < st.current_position - 1
  · rw [if_pos ha, if_pos ha]
    by_cases hp : (!(slice st.input st.anchor (st.current_position - 1)).all is_symbol) = true
    · rw [if_pos hp, if_pos hp]
      rcases hf : TokenKind.fromStr (slice st.input st.anchor (st.current_position - 1)) with - | k
      · simp only [hf]
        refine ⟨by simp, ?_⟩
        intro t s' h
        simp only [Option.some.injEq, Prod.mk.injEq] at h
        obtain ⟨h1, h2⟩ := h
        subst h1; subst h2
        exact ⟨E ++ [_], rfl⟩
      · simp only [hf]
        refine ⟨by simp, ?_⟩
        intro t s' h
        simp only [Option.some.injEq, Prod.mk.injEq] at h
        obtain ⟨h1, h2⟩ := h
        subst h1; subst h2
        exact ⟨E, rfl⟩
    · rw [if_neg hp, if_neg hp]
      exact handle_symbol_frame st E N
  · rw [if_neg ha, if_neg ha]
    exact handle_symbol_frame st E N

/-- The token produced by `next_token` (and the evolution of the scanner
offsets, anchor and literal flags) does not depend on the error list or
the newline flag. -/
theorem nextTokenF_frame : ∀ (fuel : Nat) (st : Lexer) (E : List LexerError)
    (N : Bool) (t : Token) (st' : Lexer),
    nextTokenF fuel st = some (t, st') →
    ∃ E' N', nextTokenF fuel { st with errors := E, newline_before_current_token := N } =
      some (t, { st' with errors := E', newline_before_current_token := N' }) := by
  intro fuel
  induction fuel with
  | zero => intro st E N t st' h; simp [nextTokenF] at h
  | succ n ih =>
    intro st E N t st' h
    rw [nextTokenF] at h ⊢
    dsimp only
    cases hg : st.input.get? st.current_position with
    | none =>
      simp only [hg] at h ⊢
      by_cases c1 : st.is_parsing_string = true
      · rw [if_pos c1] at h ⊢
        simp only [Option.some.injEq, Prod.mk.injEq] at h
        obtain ⟨h1, h2⟩ := h
        subst h1; subst h2
        exact ⟨E ++ [_], N, rfl⟩
      · rw [if_neg c1] at h ⊢
        by_cases c2 : st.is_parsing_rune = true
        · rw [if_pos c2] at h ⊢
          simp only [Option.some.injEq, Prod.mk.injEq] at h
          obtain ⟨h1, h2⟩ := h
          subst h1; subst h2
          exact ⟨E ++ [_], N, rfl⟩
        · rw [if_neg c2] at h ⊢
          simp only [Option.some.injEq, Prod.mk.injEq] at h
          obtain ⟨h1, h2⟩ := h
          subst h1; subst h2
          exact ⟨E, N, rfl⟩
    | some ch =>
      simp only [hg] at h ⊢
      by_cases c1 : (is_whitespace ch && !st.is_parsing_string && !st.is_parsing_rune) = true
      · rw [if_pos c1] at h ⊢
        obtain ⟨N'', hw⟩ :=
          handle_whitespace_frame { st with current_position := st.current_position + 1 } E N
        rw [hw]
        exact ih _ E N'' t st' h
      · rw [if_neg c1] at h ⊢
        by_cases c2 : (is_whitespace ch && st.is_parsing_rune) = true
        · rw [if_pos c2] at h ⊢
          simp only [Option.some.injEq, Prod.mk.injEq] at h
          obtain ⟨h1, h2⟩ := h
          subst h1; subst h2
          exact ⟨E ++ [_], N, rfl⟩
        · rw [if_neg c2] at h ⊢
          by_cases c3 : ch = '"'
          · rw [if_pos c3] at h ⊢
            by_cases c4 : st.is_parsing_string = true
            · rw [if_pos c4] at h ⊢
              simp only [finalize_string, Option.some.injEq, Prod.mk.injEq] at h ⊢
              obtain ⟨h1, h2⟩ := h
              subst h1; subst h2
              exact ⟨E, N, ⟨rfl, rfl⟩⟩
            · rw [if_neg c4] at h ⊢
              exact ih _ E N t st' h
          · rw [if_neg c3] at h ⊢
            by_cases c5 : ch = '\''
            · rw [if_pos c5] at h ⊢
              by_cases c6 : st.is_parsing_rune = true
              · rw [if_pos c6] at h ⊢
                simp only [finalize_rune, Option.some.injEq, Prod.mk.injEq] at h ⊢
                obtain ⟨h1, h2⟩ := h
                subst h1; subst h2
                exact ⟨E, N, ⟨rfl, rfl⟩⟩
              · rw [if_neg c6] at h ⊢
                exact ih _ E N t st' h
            · rw [if_neg c5] at h ⊢
              by_cases c7 : st.is_parsing_string = true
              · rw [if_pos c7] at h ⊢
                by_cases c8 : ch = '\\'
                · rw [if_pos c8] at h ⊢
                  rw [advanceOne_frame
                    { st with current_position := st.current_position + 1 } E N]
                  exact ih _ E N t st' h
                · rw [if_neg c8] at h ⊢
                  exact ih _ E N t st' h
              · rw [if_neg c7] at h ⊢
                by_cases c9 : st.is_parsing_rune = true
                · rw [if_pos c9] at h ⊢
                  by_cases c10 : ch = '\\'
                  · rw [if_pos c10] at h ⊢
                    rw [advanceOne_frame
                      { st with current_position := st.current_position + 1 } E N]
                    exact ih _ E N t st' h
                  · rw [if_neg c10] at h ⊢
                    exact ih _ E N t st' h
                · rw [if_neg c9] at h ⊢
                  by_cases c11 : is_symbol ch = true
                  · rw [if_pos c11] at h ⊢
                    obtain ⟨hnone, hsome⟩ := handle_symbol_char_frame
                      { st with current_position := st.current_position + 1 } E N
                    cases hsc : ({ st with current_position := st.current_position + 1 } :
                        Lexer).handle_symbol_char with
                    | some r =>
                      rw [hsc] at h
                      simp only [Option.some.injEq] at h
                      subst h
                      obtain ⟨E', he⟩ := hsome _ _ hsc
                      rw [he]
                      exact ⟨E', N, rfl⟩
                    | none =>
                      rw [hsc] at h
                      rw [hnone hsc]
                      exact ih _ E N t st' h
                  · rw [if_neg c11] at h ⊢
                    obtain ⟨hnone, hsome⟩ := handle_word_frame
                      { st with current_position := st.current_position + 1 } E N
                    cases hsc : ({ st with current_position := st.current_position + 1 } :
                        Lexer).handle_word with
                    | some r =>
                      rw [hsc] at h
                      simp only [Option.some.injEq] at h
                      subst h
                      obtain ⟨E', he⟩ := hsome _ _ hsc
                      rw [he]
                      exact ⟨E', N, rfl⟩
                    | none =>
                      rw [hsc] at h
                      rw [hnone hsc]
                      exact ih _ E N t st' h

end Lexer

/-! ### Parser lemmas: measure, progress, fuel monotonicity and
sufficiency (termination of `parse`) -/

namespace Parser

/-- Termination measure for the parser: the tokenizer's scan measure plus
one when the lookahead token is not yet `EOF`. -/
def parseMeasure (st : Parser) : Nat :=
  Lexer.lexMeasure st.lexer +
    (if st.peek_token.kind = some TokenKind.EOF then 0 else 1)

/-- `advance` as a branch on the lookahead kind, with the tokenizer call
exposed as projections. -/
theorem advance_def (st : Parser) :
    st.advance =
      if st.peek_token.kind ≠ some TokenKind.EOF then
        { st with current_token := st.peek_token,
                  peek_token := (st.lexer.nextToken).1,
                  lexer := (st.lexer.nextToken).2 }
      else
        { st with current_token := st.peek_token,
                  peek_token := Token.newWithKind .EOF [] st.peek_token.position } := by
  unfold advance
  cases h : st.lexer.nextToken with
  | mk t lx =>
    by_cases hk : st.peek_token.kind = some TokenKind.EOF
    · simp [hk]
    · simp [hk, h]

theorem advance_errors (st : Parser) : st.advance.errors = st.errors := by
  rw [advance_def]; split <;> rfl

theorem parseMeasure_advance_lt (st : Parser)
    (h : ¬ st.peek_token.kind = some TokenKind.EOF) :
    parseMeasure st.advance < parseMeasure st := by
  rw [advance_def, if_pos h]
  obtain ⟨-, -, C3, C4, -⟩ := Lexer.nextToken_facts st.lexer
  unfold parseMeasure
  dsimp only
  by_cases hk : (st.lexer.nextToken).1.kind = some TokenKind.EOF
  · have hle := (C3 hk).2.2.2.2
    simp [hk, h]
    omega
  · have hlt := C4 hk
    simp only [if_neg hk, if_neg h]
    omega

theorem parseMeasure_advance_le (st : Parser) :
    parseMeasure st.advance ≤ parseMeasure st := by
  by_cases h : st.peek_token.kind = some TokenKind.EOF
  · rw [advance_def, if_neg (by simpa using h)]
    unfold parseMeasure
    simp [h, Token.newWithKind]
  · exact Nat.le_of_lt (parseMeasure_advance_lt st h)

theorem isEndOfLine_spec (st : Parser) :
    parseMeasure (st.isEndOfLine).2 = parseMeasure st ∧
    (st.isEndOfLine).2.peek_token = st.peek_token ∧
    (st.isEndOfLine).2.current_token = st.current_token ∧
    (st.isEndOfLine).2.errors = st.errors := by
  unfold isEndOfLine Lexer.had_newline_before_current_token
  split
  · exact ⟨rfl, rfl, rfl, rfl⟩
  · exact ⟨rfl, rfl, rfl, rfl⟩

theorem handleSemicolonInsertion_spec (st : Parser) :
    parseMeasure (st.handleSemicolonInsertion).2 ≤ parseMeasure st ∧
    (st.handleSemicolonInsertion).2.errors = st.errors := by
  unfold handleSemicolonInsertion
  by_cases h : st.peek_token.kind = some TokenKind.Semicolon
  · rw [if_pos h]
    refine ⟨Nat.le_of_lt (parseMeasure_advance_lt st ?_), advance_errors st⟩
    rw [h]; intro hc; cases hc
  · rw [if_neg h]
    obtain ⟨m, p, c, e⟩ := isEndOfLine_spec st
    cases hE : st.isEndOfLine with
    | mk b st1 =>
      rw [hE] at m p c e
      dsimp only
      split <;> exact ⟨Nat.le_of_eq m, e⟩

theorem synchronizeF_spec : ∀ (fuel : Nat) (st st' : Parser),
    synchronizeF fuel st = some st' →
    parseMeasure st' ≤ parseMeasure st ∧ st'.errors = st.errors ∧
    (st'.peek_token.kind = some TokenKind.EOF ∨
      st'.peek_token.kind = some TokenKind.Semicolon) := by
  intro fuel
  induction fuel with
  | zero => intro st st' h; cases h
  | succ n ih =>
    intro st st' h
    rw [synchronizeF] at h
    split at h
    · rename_i hstop
      cases h
      exact ⟨Nat.le_refl _, rfl, hstop⟩
    · rename_i hgo
      obtain ⟨m, e, k⟩ := ih st.advance st' h
      have hne : ¬ st.peek_token.kind = some TokenKind.EOF := by
        intro hc; exact hgo (Or.inl hc)
      refine ⟨Nat.le_trans m (Nat.le_of_lt (parseMeasure_advance_lt st hne)), ?_, k⟩
      rw [e, advance_errors]

theorem synchronizeF_mono : ∀ (fuel fuel' : Nat), fuel ≤ fuel' →
    ∀ (st st' : Parser), synchronizeF fuel st = some st' →
    synchronizeF fuel' st = some st' := by
  intro fuel
  induction fuel with
  | zero => intro fuel' _ st st' h; cases h
  | succ n ih =>
    intro fuel' hle st st' h
    cases fuel' with
    | zero => omega
    | succ m =>
      rw [synchronizeF] at h ⊢
      split at h
      · rename_i hstop
        rw [if_pos hstop]
        exact h
      · rename_i hgo
        rw [if_neg hgo]
        exact ih m (by omega) st.advance st' h

theorem synchronizeF_isSome : ∀ (fuel : Nat) (st : Parser),
    parseMeasure st < fuel → (synchronizeF fuel st).isSome = true := by
  intro fuel
  induction fuel with
  | zero => intro st h; omega
  | succ n ih =>
    intro st h
    rw [synchronizeF]
    split
    · rfl
    · rename_i hgo
      have hne : ¬ st.peek_token.kind = some TokenKind.EOF := by
        intro hc; exact hgo (Or.inl hc)
      exact ih st.advance (by
        have := parseMeasure_advance_lt st hne; omega)

theorem expectTokenF_spec : ∀ (fuel : Nat) (kind : TokenKind) (st : Parser)
    (r : Except ParserError Token) (st' : Parser),
    expectTokenF fuel kind st = some (r, st') →
    parseMeasure st' ≤ parseMeasure st ∧ st.errors <+: st'.errors ∧
    (∀ t, r = Except.ok t →
      st.peek_token.kind = some kind ∧ st' = st.advance ∧ st'.errors = st.errors) := by
  intro fuel kind st r st' h
  unfold expectTokenF at h
  split at h
  · rename_i hk
    cases h
    exact ⟨parseMeasure_advance_le st, by rw [advance_errors],
      fun t _ => ⟨hk, rfl, advance_errors st⟩⟩
  · rename_i hk
    dsimp only at h
    cases hs : synchronizeF fuel
        { st with errors := st.errors ++
            [ParserError.new (.UnexpectedToken st.peek_token.value)
              st.peek_token.position] } with
    | none => rw [hs] at h; cases h
    | some st1 =>
      rw [hs] at h
      cases h
      obtain ⟨m, e, -⟩ := synchronizeF_spec fuel _ _ hs
      refine ⟨Nat.le_trans m (Nat.le_refl _), ?_, by intro t ht; cases ht⟩
      rw [e]
      exact ⟨_, rfl⟩

theorem expectTokenF_mono : ∀ (fuel fuel' : Nat), fuel ≤ fuel' →
    ∀ (kind : TokenKind) (st : Parser) (r : Except ParserError Token × Parser),
    expectTokenF fuel kind st = some r → expectTokenF fuel' kind st = some r := by
  intro fuel fuel' hle kind st r h
  unfold expectTokenF at h ⊢
  by_cases hk : st.peek_token.kind = some kind
  · rw [if_pos hk] at h ⊢
    exact h
  · rw [if_neg hk] at h ⊢
    dsimp only at h ⊢
    cases hs : synchronizeF fuel
        { st with errors := st.errors ++
            [ParserError.new (.UnexpectedToken st.peek_token.value)
              st.peek_token.position] } with
    | none => rw [hs] at h; cases h
    | some st1 =>
      rw [hs] at h
      rw [synchronizeF_mono fuel fuel' hle _ _ hs]
      exact h

theorem expectTokenF_isSome : ∀ (fuel : Nat) (kind : TokenKind) (st : Parser),
    parseMeasure st < fuel → (expectTokenF fuel kind st).isSome = true := by
  intro fuel kind st h
  unfold expectTokenF
  by_cases hk : st.peek_token.kind = some kind
  · rw [if_pos hk]
    rfl
  · rw [if_neg hk]
    dsimp only
    have hy := synchronizeF_isSome fuel
      { st with errors := st.errors ++
          [ParserError.new (.UnexpectedToken st.peek_token.value)
            st.peek_token.position] } h
    cases hs : synchronizeF fuel
        { st with errors := st.errors ++
            [ParserError.new (.UnexpectedToken st.peek_token.value)
              st.peek_token.position] } with
    | none => rw [hs] at hy; cases hy
    | some st1 => simp [hs]


theorem expBlock_spec : ∀ (fuel : Nat),
    (∀ (st : Parser) (r : Except ParserError Expression) (st' : Parser),
      parseExpressionF fuel st = some (r, st') →
      parseMeasure st' ≤ parseMeasure st ∧ st.errors <+: st'.errors ∧
      (∀ e, r = Except.ok e → parseMeasure st' < parseMeasure st)) ∧
    (∀ (st : Parser) (r : Except ParserError Expression) (st' : Parser),
      parseIdentifierExpressionF fuel st = some (r, st') →
      parseMeasure st' ≤ parseMeasure st ∧ st.errors <+: st'.errors ∧
      (∀ e, r = Except.ok e → parseMeasure st' < parseMeasure st)) ∧
    (∀ (ex : Expression) (st : Parser) (r : Except ParserError Expression)
      (st' : Parser), trailerLoopF fuel ex st = some (r, st') →
      parseMeasure st' ≤ parseMeasure st ∧ st.errors <+: st'.errors) ∧
    (∀ (st : Parser) (r : Except ParserError (List Expression)) (st' : Parser),
      argsLoopF fuel st = some (r, st') →
      parseMeasure st' ≤ parseMeasure st ∧ st.errors <+: st'.errors) := by
  intro fuel
  induction fuel with
  | zero =>
    refine ⟨?_, ?_, ?_, ?_⟩
    · intro st r st' h; simp [parseExpressionF] at h
    · intro st r st' h; simp [parseIdentifierExpressionF] at h
    · intro ex st r st' h; simp [trailerLoopF] at h
    · intro st r st' h; simp [argsLoopF] at h
  | succ n ih =>
    obtain ⟨ihE, ihI, ihT, ihA⟩ := ih
    have hadv_lt : ∀ (st : Parser) (k : TokenKind),
        st.peek_token.kind = some k → k ≠ TokenKind.EOF →
        parseMeasure st.advance < parseMeasure st := by
      intro st k hk hne
      refine parseMeasure_advance_lt st ?_
      rw [hk]
      intro hc
      exact hne (Option.some.inj hc)
    refine ⟨?_, ?_, ?_, ?_⟩
    · -- parseExpressionF
      intro st r st' h
      rw [parseExpressionF] at h
      split at h
      · exact ihI st r st' h
      · -- IntegerLiteral
        split at h
        · rename_i tok st1 heq
          simp only [Option.some.injEq, Prod.mk.injEq] at h
          obtain ⟨rfl, rfl⟩ := h
          obtain ⟨m1, p1, okc⟩ := expectTokenF_spec n _ st _ _ heq
          obtain ⟨hpk, rfl, -⟩ := okc tok rfl
          have hlt := hadv_lt st _ hpk (by intro hc; cases hc)
          exact ⟨Nat.le_of_lt hlt, p1, fun e _ => hlt⟩
        · rename_i e1 st1 heq
          simp only [Option.some.injEq, Prod.mk.injEq] at h
          obtain ⟨rfl, rfl⟩ := h
          obtain ⟨m1, p1, -⟩ := expectTokenF_spec n _ st _ _ heq
          exact ⟨m1, p1, fun e he => by cases he⟩
        · cases h
      · -- StringLiteral
        split at h
        · rename_i tok st1 heq
          simp only [Option.some.injEq, Prod.mk.injEq] at h
          obtain ⟨rfl, rfl⟩ := h
          obtain ⟨m1, p1, okc⟩ := expectTokenF_spec n _ st _ _ heq
          obtain ⟨hpk, rfl, -⟩ := okc tok rfl
          have hlt := hadv_lt st _ hpk (by intro hc; cases hc)
          exact ⟨Nat.le_of_lt hlt, p1, fun e _ => hlt⟩
        · rename_i e1 st1 heq
          simp only [Option.some.injEq, Prod.mk.injEq] at h
          obtain ⟨rfl, rfl⟩ := h
          obtain ⟨m1, p1, -⟩ := expectTokenF_spec n _ st _ _ heq
          exact ⟨m1, p1, fun e he => by cases he⟩
        · cases h
      · -- default: immediate error
        simp only [Option.some.injEq, Prod.mk.injEq] at h
        obtain ⟨rfl, rfl⟩ := h
        exact ⟨Nat.le_refl _, List.prefix_refl _, fun e he => by cases he⟩
    · -- parseIdentifierExpressionF
      intro st r st' h
      rw [parseIdentifierExpressionF] at h
      split at h
      · rename_i tok st1 heq
        obtain ⟨m1, p1, okc⟩ := expectTokenF_spec n _ st _ _ heq
        obtain ⟨hpk, rfl, -⟩ := okc tok rfl
        obtain ⟨m2, p2⟩ := ihT _ _ r st' h
        have hlt := hadv_lt st _ hpk (by intro hc; cases hc)
        exact ⟨Nat.le_of_lt (Nat.lt_of_le_of_lt m2 hlt), p1.trans p2,
          fun e _ => Nat.lt_of_le_of_lt m2 hlt⟩
      · rename_i e1 st1 heq
        simp only [Option.some.injEq, Prod.mk.injEq] at h
        obtain ⟨rfl, rfl⟩ := h
        obtain ⟨m1, p1, -⟩ := expectTokenF_spec n _ st _ _ heq
        exact ⟨m1, p1, fun e he => by cases he⟩
      · cases h
    · -- trailerLoopF
      intro ex st r st' h
      rw [trailerLoopF] at h
      split at h
      · -- Dot
        rename_i hpk
        have hlt := hadv_lt st _ hpk (by intro hc; cases hc)
        have hae : st.advance.errors = st.errors := advance_errors st
        dsimp only at h
        split at h
        · rename_i tok st2 heq
          obtain ⟨m1, p1, -⟩ := expectTokenF_spec n _ st.advance _ _ heq
          obtain ⟨m2, p2⟩ := ihT _ _ r st' h
          refine ⟨?_, ?_⟩
          · exact Nat.le_of_lt (Nat.lt_of_le_of_lt (Nat.le_trans m2 m1) hlt)
          · rw [← hae]
            exact p1.trans p2
        · rename_i e1 st2 heq
          simp only [Option.some.injEq, Prod.mk.injEq] at h
          obtain ⟨rfl, rfl⟩ := h
          obtain ⟨m1, p1, -⟩ := expectTokenF_spec n _ st.advance _ _ heq
          refine ⟨Nat.le_of_lt (Nat.lt_of_le_of_lt m1 hlt), ?_⟩
          rw [← hae]
          exact p1
        · cases h
      · -- LeftParen
        rename_i hpk
        have hlt := hadv_lt st _ hpk (by intro hc; cases hc)
        have hae : st.advance.errors = st.errors := advance_errors st
        dsimp only at h
        by_cases hrp : st.advance.peek_token.kind = some TokenKind.RightParen
        · rw [if_pos hrp] at h
          dsimp only at h
          split at h
          · rename_i rp st3 heq
            obtain ⟨m1, p1, -⟩ := expectTokenF_spec n _ st.advance _ _ heq
            obtain ⟨m2, p2⟩ := ihT _ _ r st' h
            refine ⟨Nat.le_of_lt (Nat.lt_of_le_of_lt (Nat.le_trans m2 m1) hlt), ?_⟩
            rw [← hae]
            exact p1.trans p2
          · rename_i e1 st3 heq
            simp only [Option.some.injEq, Prod.mk.injEq] at h
            obtain ⟨rfl, rfl⟩ := h
            obtain ⟨m1, p1, -⟩ := expectTokenF_spec n _ st.advance _ _ heq
            refine ⟨Nat.le_of_lt (Nat.lt_of_le_of_lt m1 hlt), ?_⟩
            rw [← hae]
            exact p1
          · cases h
        · rw [if_neg hrp] at h
          split at h
          · rename_i args st2 heq
            obtain ⟨mA, pA⟩ := ihA _ _ _ heq
            split at h
            · rename_i rp st3 heq2
              obtain ⟨m1, p1, -⟩ := expectTokenF_spec n _ st2 _ _ heq2
              obtain ⟨m2, p2⟩ := ihT _ _ r st' h
              refine ⟨Nat.le_of_lt
                (Nat.lt_of_le_of_lt (Nat.le_trans (Nat.le_trans m2 m1) mA) hlt), ?_⟩
              rw [← hae]
              exact (pA.trans p1).trans p2
            · rename_i e1 st3 heq2
              simp only [Option.some.injEq, Prod.mk.injEq] at h
              obtain ⟨rfl, rfl⟩ := h
              obtain ⟨m1, p1, -⟩ := expectTokenF_spec n _ st2 _ _ heq2
              refine ⟨Nat.le_of_lt (Nat.lt_of_le_of_lt (Nat.le_trans m1 mA) hlt), ?_⟩
              rw [← hae]
              exact pA.trans p1
            · cases h
          · rename_i e1 st2 heq
            simp only [Option.some.injEq, Prod.mk.injEq] at h
            obtain ⟨rfl, rfl⟩ := h
            obtain ⟨mA, pA⟩ := ihA _ _ _ heq
            refine ⟨Nat.le_of_lt (Nat.lt_of_le_of_lt mA hlt), ?_⟩
            rw [← hae]
            exact pA
          · cases h
      · -- no trailer
        simp only [Option.some.injEq, Prod.mk.injEq] at h
        obtain ⟨rfl, rfl⟩ := h
        exact ⟨Nat.le_refl _, List.prefix_refl _⟩
    · -- argsLoopF
      intro st r st' h
      rw [argsLoopF] at h
      split at h
      · rename_i e1 st1 heq
        obtain ⟨mE, pE, sE⟩ := ihE st _ _ heq
        by_cases hc : st1.peek_token.kind = some TokenKind.Comma
        · rw [if_pos hc] at h
          have hlt := hadv_lt st1 _ hc (by intro hx; cases hx)
          have hae : st1.advance.errors = st1.errors := advance_errors st1
          split at h
          · rename_i es st2 heq2
            simp only [Option.some.injEq, Prod.mk.injEq] at h
            obtain ⟨rfl, rfl⟩ := h
            obtain ⟨mA, pA⟩ := ihA _ _ _ heq2
            refine ⟨Nat.le_trans (Nat.le_trans mA (Nat.le_of_lt hlt)) mE, ?_⟩
            refine pE.trans ?_
            rw [← hae]
            exact pA
          · rename_i err st2 heq2
            simp only [Option.some.injEq, Prod.mk.injEq] at h
            obtain ⟨rfl, rfl⟩ := h
            obtain ⟨mA, pA⟩ := ihA _ _ _ heq2
            refine ⟨Nat.le_trans (Nat.le_trans mA (Nat.le_of_lt hlt)) mE, ?_⟩
            refine pE.trans ?_
            rw [← hae]
            exact pA
          · cases h
        · rw [if_neg hc] at h
          simp only [Option.some.injEq, Prod.mk.injEq] at h
          obtain ⟨rfl, rfl⟩ := h
          exact ⟨mE, pE⟩
      · rename_i err st1 heq
        simp only [Option.some.injEq, Prod.mk.injEq] at h
        obtain ⟨rfl, rfl⟩ := h
        obtain ⟨mE, pE, -⟩ := ihE st _ _ heq
        exact ⟨mE, pE⟩
      · cases h


theorem parseExpressionStatementF_spec : ∀ (fuel : Nat) (st : Parser)
    (r : Except ParserError Statement) (st' : Parser),
    parseExpressionStatementF fuel st = some (r, st') →
    parseMeasure st' ≤ parseMeasure st ∧ st.errors <+: st'.errors ∧
    (∀ s, r = Except.ok s → parseMeasure st' < parseMeasure st) := by
  intro fuel st r st' h
  unfold parseExpressionStatementF at h
  split at h
  · rename_i e1 st1 heq
    obtain ⟨m1, p1, s1⟩ := (expBlock_spec fuel).1 st _ _ heq
    have hlt : parseMeasure st1 < parseMeasure st := s1 e1 rfl
    dsimp only at h
    obtain ⟨mS, eS⟩ := handleSemicolonInsertion_spec st1
    split at h
    · rename_i pos st2 heq2
      simp only [Option.some.injEq, Prod.mk.injEq] at h
      obtain ⟨rfl, rfl⟩ := h
      rw [heq2] at mS eS
      refine ⟨Nat.le_of_lt (Nat.lt_of_le_of_lt mS hlt), ?_,
        fun s _ => Nat.lt_of_le_of_lt mS hlt⟩
      rw [eS]
      exact p1
    · rename_i e2 st2 heq2
      simp only [Option.some.injEq, Prod.mk.injEq] at h
      obtain ⟨rfl, rfl⟩ := h
      rw [heq2] at mS eS
      refine ⟨Nat.le_of_lt (Nat.lt_of_le_of_lt mS hlt), ?_, fun s hs => by cases hs⟩
      rw [eS]
      exact p1
  · rename_i e1 st1 heq
    simp only [Option.some.injEq, Prod.mk.injEq] at h
    obtain ⟨rfl, rfl⟩ := h
    obtain ⟨m1, p1, -⟩ := (expBlock_spec fuel).1 st _ _ heq
    exact ⟨m1, p1, fun s hs => by cases hs⟩
  · cases h

theorem parsePackageDeclarationF_spec : ∀ (fuel : Nat) (st : Parser)
    (r : Except ParserError Statement) (st' : Parser),
    parsePackageDeclarationF fuel st = some (r, st') →
    parseMeasure st' ≤ parseMeasure st ∧ st.errors <+: st'.errors ∧
    (∀ s, r = Except.ok s → parseMeasure st' < parseMeasure st) := by
  intro fuel st r st' h
  unfold parsePackageDeclarationF at h
  split at h
  · rename_i tok st1 heq
    obtain ⟨m1, p1, okc⟩ := expectTokenF_spec fuel _ st _ _ heq
    obtain ⟨hpk, rfl, -⟩ := okc tok rfl
    have hlt : parseMeasure st.advance < parseMeasure st := by
      refine parseMeasure_advance_lt st ?_
      rw [hpk]; intro hc; cases hc
    dsimp only at h
    split at h
    · rename_i tok2 st2 heq2
      obtain ⟨m2, p2, -⟩ := expectTokenF_spec fuel _ _ _ _ heq2
      obtain ⟨mS, eS⟩ := handleSemicolonInsertion_spec st2
      split at h
      · rename_i pos st3 heq3
        simp only [Option.some.injEq, Prod.mk.injEq] at h
        obtain ⟨rfl, rfl⟩ := h
        rw [heq3] at mS eS
        have hm : parseMeasure st3 ≤ parseMeasure st.advance := Nat.le_trans mS m2
        refine ⟨Nat.le_of_lt (Nat.lt_of_le_of_lt hm hlt), ?_,
          fun s _ => Nat.lt_of_le_of_lt hm hlt⟩
        rw [eS]
        exact p1.trans p2
      · rename_i e2 st3 heq3
        simp only [Option.some.injEq, Prod.mk.injEq] at h
        obtain ⟨rfl, rfl⟩ := h
        rw [heq3] at mS eS
        have hm : parseMeasure st3 ≤ parseMeasure st.advance := Nat.le_trans mS m2
        refine ⟨Nat.le_of_lt (Nat.lt_of_le_of_lt hm hlt), ?_, fun s hs => by cases hs⟩
        rw [eS]
        exact p1.trans p2
    · rename_i e2 st2 heq2
      simp only [Option.some.injEq, Prod.mk.injEq] at h
      obtain ⟨rfl, rfl⟩ := h
      obtain ⟨m2, p2, -⟩ := expectTokenF_spec fuel _ _ _ _ heq2
      exact ⟨Nat.le_of_lt (Nat.lt_of_le_of_lt m2 hlt), p1.trans p2,
        fun s hs => by cases hs⟩
    · cases h
  · rename_i e1 st1 heq
    simp only [Option.some.injEq, Prod.mk.injEq] at h
    obtain ⟨rfl, rfl⟩ := h
    obtain ⟨m1, p1, -⟩ := expectTokenF_spec fuel _ st _ _ heq
    exact ⟨m1, p1, fun s hs => by cases hs⟩
  · cases h

theorem parseImportDeclarationF_spec : ∀ (fuel : Nat) (st : Parser)
    (r : Except ParserError Statement) (st' : Parser),
    parseImportDeclarationF fuel st = some (r, st') →
    parseMeasure st' ≤ parseMeasure st ∧ st.errors <+: st'.errors ∧
    (∀ s, r = Except.ok s → parseMeasure st' < parseMeasure st) := by
  intro fuel st r st' h
  unfold parseImportDeclarationF at h
  split at h
  · rename_i tok st1 heq
    obtain ⟨m1, p1, okc⟩ := expectTokenF_spec fuel _ st _ _ heq
    obtain ⟨hpk, rfl, -⟩ := okc tok rfl
    have hlt : parseMeasure st.advance < parseMeasure st := by
      refine parseMeasure_advance_lt st ?_
      rw [hpk]; intro hc; cases hc
    dsimp only at h
    split at h
    · rename_i tok2 st2 heq2
      obtain ⟨m2, p2, -⟩ := expectTokenF_spec fuel _ _ _ _ heq2
      obtain ⟨mS, eS⟩ := handleSemicolonInsertion_spec st2
      split at h
      · rename_i pos st3 heq3
        simp only [Option.some.injEq, Prod.mk.injEq] at h
        obtain ⟨rfl, rfl⟩ := h
        rw [heq3] at mS eS
        have hm : parseMeasure st3 ≤ parseMeasure st.advance := Nat.le_trans mS m2
        refine ⟨Nat.le_of_lt (Nat.lt_of_le_of_lt hm hlt), ?_,
          fun s _ => Nat.lt_of_le_of_lt hm hlt⟩
        rw [eS]
        exact p1.trans p2
      · rename_i e2 st3 heq3
        simp only [Option.some.injEq, Prod.mk.injEq] at h
        obtain ⟨rfl, rfl⟩ := h
        rw [heq3] at mS eS
        have hm : parseMeasure st3 ≤ parseMeasure st.advance := Nat.le_trans mS m2
        refine ⟨Nat.le_of_lt (Nat.lt_of_le_of_lt hm hlt), ?_, fun s hs => by cases hs⟩
        rw [eS]
        exact p1.trans p2
    · rename_i e2 st2 heq2
      simp only [Option.some.injEq, Prod.mk.injEq] at h
      obtain ⟨rfl, rfl⟩ := h
      obtain ⟨m2, p2, -⟩ := expectTokenF_spec fuel _ _ _ _ heq2
      exact ⟨Nat.le_of_lt (Nat.lt_of_le_of_lt m2 hlt), p1.trans p2,
        fun s hs => by cases hs⟩
    · cases h
  · rename_i e1 st1 heq
    simp only [Option.some.injEq, Prod.mk.injEq] at h
    obtain ⟨rfl, rfl⟩ := h
    obtain ⟨m1, p1, -⟩ := expectTokenF_spec fuel _ st _ _ heq
    exact ⟨m1, p1, fun s hs => by cases hs⟩
  · cases h


theorem stmtBlock_spec : ∀ (fuel : Nat),
    (∀ (st : Parser) (r : Except ParserError Statement) (st' : Parser),
      parseStatementF fuel st = some (r, st') →
      parseMeasure st' ≤ parseMeasure st ∧ st.errors <+: st'.errors ∧
      (∀ s, r = Except.ok s → parseMeasure st' < parseMeasure st)) ∧
    (∀ (st : Parser) (r : Except ParserError Statement) (st' : Parser),
      parseFunctionDeclarationF fuel st = some (r, st') →
      parseMeasure st' ≤ parseMeasure st ∧ st.errors <+: st'.errors ∧
      (∀ s, r = Except.ok s → parseMeasure st' < parseMeasure st)) ∧
    (∀ (st : Parser) (r : Except ParserError (List Statement)) (st' : Parser),
      bodyLoopF fuel st = some (r, st') →
      parseMeasure st' ≤ parseMeasure st ∧ st.errors <+: st'.errors) := by
  intro fuel
  induction fuel with
  | zero =>
    refine ⟨?_, ?_, ?_⟩
    · intro st r st' h; simp [parseStatementF] at h
    · intro st r st' h; simp [parseFunctionDeclarationF] at h
    · intro st r st' h; simp [bodyLoopF] at h
  | succ n ih =>
    obtain ⟨ihS, ihF, ihB⟩ := ih
    refine ⟨?_, ?_, ?_⟩
    · -- parseStatementF
      intro st r st' h
      rw [parseStatementF] at h
      split at h
      · exact parsePackageDeclarationF_spec n st r st' h
      · exact parseImportDeclarationF_spec n st r st' h
      · exact ihF st r st' h
      · exact parseExpressionStatementF_spec n st r st' h
    · -- parseFunctionDeclarationF
      intro st r st' h
      rw [parseFunctionDeclarationF] at h
      split at h
      · rename_i tok st1 heq
        obtain ⟨m1, p1, okc⟩ := expectTokenF_spec n _ st _ _ heq
        obtain ⟨hpk, rfl, -⟩ := okc tok rfl
        have hlt : parseMeasure st.advance < parseMeasure st := by
          refine parseMeasure_advance_lt st ?_
          rw [hpk]; intro hc; cases hc
        dsimp only at h
        split at h
        · rename_i tok2 st2 heq2
          obtain ⟨m2, p2, -⟩ := expectTokenF_spec n _ _ _ _ heq2
          split at h
          · rename_i tok3 st3 heq3
            obtain ⟨m3, p3, -⟩ := expectTokenF_spec n _ _ _ _ heq3
            split at h
            · rename_i tok4 st4 heq4
              obtain ⟨m4, p4, -⟩ := expectTokenF_spec n _ _ _ _ heq4
              split at h
              · rename_i tok5 st5 heq5
                obtain ⟨m5, p5, -⟩ := expectTokenF_spec n _ _ _ _ heq5
                split at h
                · rename_i body st6 heq6
                  obtain ⟨m6, p6⟩ := ihB _ _ _ heq6
                  split at h
                  · rename_i tok7 st7 heq7
                    obtain ⟨m7, p7, -⟩ := expectTokenF_spec n _ _ _ _ heq7
                    simp only [Option.some.injEq, Prod.mk.injEq] at h
                    obtain ⟨rfl, rfl⟩ := h
                    have hm : parseMeasure st7 ≤ parseMeasure st.advance :=
                      Nat.le_trans m7 (Nat.le_trans m6 (Nat.le_trans m5
                        (Nat.le_trans m4 (Nat.le_trans m3 m2))))
                    refine ⟨Nat.le_of_lt (Nat.lt_of_le_of_lt hm hlt), ?_,
                      fun s _ => Nat.lt_of_le_of_lt hm hlt⟩
                    exact ((((((p1.trans p2).trans p3).trans p4).trans p5).trans
                      p6).trans p7)
                  · rename_i e7 st7 heq7
                    obtain ⟨m7, p7, -⟩ := expectTokenF_spec n _ _ _ _ heq7
                    simp only [Option.some.injEq, Prod.mk.injEq] at h
                    obtain ⟨rfl, rfl⟩ := h
                    have hm : parseMeasure st7 ≤ parseMeasure st.advance :=
                      Nat.le_trans m7 (Nat.le_trans m6 (Nat.le_trans m5
                        (Nat.le_trans m4 (Nat.le_trans m3 m2))))
                    refine ⟨Nat.le_of_lt (Nat.lt_of_le_of_lt hm hlt), ?_,
                      fun s hs => by cases hs⟩
                    exact ((((((p1.trans p2).trans p3).trans p4).trans p5).trans
                      p6).trans p7)
                  · cases h
                · rename_i e6 st6 heq6
                  obtain ⟨m6, p6⟩ := ihB _ _ _ heq6
                  simp only [Option.some.injEq, Prod.mk.injEq] at h
                  obtain ⟨rfl, rfl⟩ := h
                  have hm : parseMeasure st6 ≤ parseMeasure st.advance :=
                    Nat.le_trans m6 (Nat.le_trans m5
                      (Nat.le_trans m4 (Nat.le_trans m3 m2)))
                  refine ⟨Nat.le_of_lt (Nat.lt_of_le_of_lt hm hlt), ?_,
                    fun s hs => by cases hs⟩
                  exact (((((p1.trans p2).trans p3).trans p4).trans p5).trans p6)
                · cases h
              · rename_i e5 st5 heq5
                obtain ⟨m5, p5, -⟩ := expectTokenF_spec n _ _ _ _ heq5
                simp only [Option.some.injEq, Prod.mk.injEq] at h
                obtain ⟨rfl, rfl⟩ := h
                have hm : parseMeasure st5 ≤ parseMeasure st.advance :=
                  Nat.le_trans m5 (Nat.le_trans m4 (Nat.le_trans m3 m2))
                refine ⟨Nat.le_of_lt (Nat.lt_of_le_of_lt hm hlt), ?_,
                  fun s hs => by cases hs⟩
                exact ((((p1.trans p2).trans p3).trans p4).trans p5)
              · cases h
            · rename_i e4 st4 heq4
              obtain ⟨m4, p4, -⟩ := expectTokenF_spec n _ _ _ _ heq4
              simp only [Option.some.injEq, Prod.mk.injEq] at h
              obtain ⟨rfl, rfl⟩ := h
              have hm : parseMeasure st4 ≤ parseMeasure st.advance :=
                Nat.le_trans m4 (Nat.le_trans m3 m2)
              refine ⟨Nat.le_of_lt (Nat.lt_of_le_of_lt hm hlt), ?_,
                fun s hs => by cases hs⟩
              exact (((p1.trans p2).trans p3).trans p4)
            · cases h
          · rename_i e3 st3 heq3
            obtain ⟨m3, p3, -⟩ := expectTokenF_spec n _ _ _ _ heq3
            simp only [Option.some.injEq, Prod.mk.injEq] at h
            obtain ⟨rfl, rfl⟩ := h
            have hm : parseMeasure st3 ≤ parseMeasure st.advance := Nat.le_trans m3 m2
            refine ⟨Nat.le_of_lt (Nat.lt_of_le_of_lt hm hlt), ?_,
              fun s hs => by cases hs⟩
            exact ((p1.trans p2).trans p3)
          · cases h
        · rename_i e2 st2 heq2
          obtain ⟨m2, p2, -⟩ := expectTokenF_spec n _ _ _ _ heq2
          simp only [Option.some.injEq, Prod.mk.injEq] at h
          obtain ⟨rfl, rfl⟩ := h
          refine ⟨Nat.le_of_lt (Nat.lt_of_le_of_lt m2 hlt), p1.trans p2,
            fun s hs => by cases hs⟩
        · cases h
      · rename_i e1 st1 heq
        simp only [Option.some.injEq, Prod.mk.injEq] at h
        obtain ⟨rfl, rfl⟩ := h
        obtain ⟨m1, p1, -⟩ := expectTokenF_spec n _ st _ _ heq
        exact ⟨m1, p1, fun s hs => by cases hs⟩
      · cases h
    · -- bodyLoopF
      intro st r st' h
      rw [bodyLoopF] at h
      split at h
      · simp only [Option.some.injEq, Prod.mk.injEq] at h
        obtain ⟨rfl, rfl⟩ := h
        exact ⟨Nat.le_refl _, List.prefix_refl _⟩
      · split at h
        · simp only [Option.some.injEq, Prod.mk.injEq] at h
          obtain ⟨rfl, rfl⟩ := h
          exact ⟨Nat.le_refl _, List.prefix_refl _⟩
        · split at h
          · rename_i stmt st1 heq
            obtain ⟨m1, p1, s1⟩ := ihS st _ _ heq
            split at h
            · rename_i stmts st2 heq2
              obtain ⟨m2, p2⟩ := ihB _ _ _ heq2
              simp only [Option.some.injEq, Prod.mk.injEq] at h
              obtain ⟨rfl, rfl⟩ := h
              exact ⟨Nat.le_trans m2 m1, p1.trans p2⟩
            · rename_i e2 st2 heq2
              obtain ⟨m2, p2⟩ := ihB _ _ _ heq2
              simp only [Option.some.injEq, Prod.mk.injEq] at h
              obtain ⟨rfl, rfl⟩ := h
              exact ⟨Nat.le_trans m2 m1, p1.trans p2⟩
            · cases h
          · rename_i e1 st1 heq
            simp only [Option.some.injEq, Prod.mk.injEq] at h
            obtain ⟨rfl, rfl⟩ := h
            obtain ⟨m1, p1, -⟩ := ihS st _ _ heq
            exact ⟨m1, p1⟩
          · cases h

theorem parseLoopF_spec : ∀ (fuel : Nat) (st : Parser) (acc stmts : List Statement)
    (st' : Parser), parseLoopF fuel st acc = some (stmts, st') →
    parseMeasure st' ≤ parseMeasure st ∧ st.errors <+: st'.errors ∧ acc <+: stmts := by
  intro fuel
  induction fuel with
  | zero => intro st acc stmts st' h; simp [parseLoopF] at h
  | succ n ih =>
    intro st acc stmts st' h
    rw [parseLoopF] at h
    split at h
    · simp only [Option.some.injEq, Prod.mk.injEq] at h
      obtain ⟨rfl, rfl⟩ := h
      exact ⟨Nat.le_refl _, List.prefix_refl _, List.prefix_refl _⟩
    · split at h
      · rename_i stmt st1 heq
        obtain ⟨m1, p1, -⟩ := (stmtBlock_spec n).1 st _ _ heq
        obtain ⟨m2, p2, a2⟩ := ih st1 _ _ _ h
        refine ⟨Nat.le_trans m2 m1, p1.trans p2, ?_⟩
        exact List.IsPrefix.trans ⟨[stmt], rfl⟩ a2
      · rename_i e st1 heq
        obtain ⟨m1, p1, -⟩ := (stmtBlock_spec n).1 st _ _ heq
        dsimp only at h
        split at h
        · rename_i st3 heq3
          obtain ⟨m3, e3, -⟩ := synchronizeF_spec n _ _ heq3
          have p3 : st1.errors <+: st3.errors := by
            rw [e3]
            exact ⟨[e], rfl⟩
          have hm3 : parseMeasure st3 ≤ parseMeasure st1 := m3
          obtain ⟨m4, p4, a4⟩ := ih _ _ _ _ h
          have hm4 : parseMeasure (if st3.peek_token.kind ≠ some TokenKind.EOF
              then st3.advance else st3) ≤ parseMeasure st3 := by
            split
            · exact parseMeasure_advance_le st3
            · exact Nat.le_refl _
          have he4 : st3.errors <+:
              (if st3.peek_token.kind ≠ some TokenKind.EOF
                then st3.advance else st3).errors := by
            split
            · rw [advance_errors]
            · exact List.prefix_refl _
          refine ⟨Nat.le_trans m4 (Nat.le_trans hm4 (Nat.le_trans hm3 m1)),
            ?_, a4⟩
          exact ((p1.trans p3).trans he4).trans p4
        · cases h
      · cases h


theorem expBlock_mono : ∀ (fuel fuel' : Nat), fuel ≤ fuel' →
    (∀ (st : Parser) (r : Except ParserError Expression × Parser),
      parseExpressionF fuel st = some r → parseExpressionF fuel' st = some r) ∧
    (∀ (st : Parser) (r : Except ParserError Expression × Parser),
      parseIdentifierExpressionF fuel st = some r →
        parseIdentifierExpressionF fuel' st = some r) ∧
    (∀ (ex : Expression) (st : Parser) (r : Except ParserError Expression × Parser),
      trailerLoopF fuel ex st = some r → trailerLoopF fuel' ex st = some r) ∧
    (∀ (st : Parser) (r : Except ParserError (List Expression) × Parser),
      argsLoopF fuel st = some r → argsLoopF fuel' st = some r) := by
  intro fuel
  induction fuel with
  | zero =>
    intro fuel' _
    refine ⟨?_, ?_, ?_, ?_⟩
    · intro st r h; simp [parseExpressionF] at h
    · intro st r h; simp [parseIdentifierExpressionF] at h
    · intro ex st r h; simp [trailerLoopF] at h
    · intro st r h; simp [argsLoopF] at h
  | succ n ih =>
    intro fuel' hle
    cases fuel' with
    | zero => omega
    | succ m =>
      obtain ⟨ihE, ihI, ihT, ihA⟩ := ih m (by omega)
      refine ⟨?_, ?_, ?_, ?_⟩
      · -- parseExpressionF
        intro st r h
        rw [parseExpressionF] at h ⊢
        cases hk : st.peek_token.kind with
        | none => rw [hk] at h; exact h
        | some k =>
          rw [hk] at h
          cases k
          case Identifier => exact ihI st r h
          case IntegerLiteral =>
            dsimp only at h ⊢
            cases he : expectTokenF n TokenKind.IntegerLiteral st with
            | none => rw [he] at h; cases h
            | some p =>
              rw [he] at h
              rw [expectTokenF_mono n m (by omega) TokenKind.IntegerLiteral st p he]
              exact h
          case StringLiteral =>
            dsimp only at h ⊢
            cases he : expectTokenF n TokenKind.StringLiteral st with
            | none => rw [he] at h; cases h
            | some p =>
              rw [he] at h
              rw [expectTokenF_mono n m (by omega) TokenKind.StringLiteral st p he]
              exact h
          all_goals exact h
      · -- parseIdentifierExpressionF
        intro st r h
        rw [parseIdentifierExpressionF] at h ⊢
        cases he : expectTokenF n TokenKind.Identifier st with
        | none => rw [he] at h; cases h
        | some p =>
          rw [he] at h
          rw [expectTokenF_mono n m (by omega) TokenKind.Identifier st p he]
          rcases p with ⟨pr, pst⟩
          cases pr with
          | ok tok => exact ihT _ pst r h
          | error e => exact h
      · -- trailerLoopF
        intro ex st r h
        rw [trailerLoopF] at h ⊢
        cases hk : st.peek_token.kind with
        | none => rw [hk] at h; exact h
        | some k =>
          rw [hk] at h
          cases k
          case Dot =>
            dsimp only at h ⊢
            cases he : expectTokenF n TokenKind.Identifier st.advance with
            | none => rw [he] at h; cases h
            | some p =>
              rw [he] at h
              rw [expectTokenF_mono n m (by omega) TokenKind.Identifier
                st.advance p he]
              rcases p with ⟨pr, pst⟩
              cases pr with
              | ok tok => exact ihT _ pst r h
              | error e => exact h
          case LeftParen =>
            dsimp only at h ⊢
            by_cases hrp : st.advance.peek_token.kind = some TokenKind.RightParen
            · rw [if_pos hrp] at h ⊢
              dsimp only at h ⊢
              cases he : expectTokenF n TokenKind.RightParen st.advance with
              | none => rw [he] at h; cases h
              | some p =>
                rw [he] at h
                rw [expectTokenF_mono n m (by omega) TokenKind.RightParen
                  st.advance p he]
                rcases p with ⟨pr, pst⟩
                cases pr with
                | ok tok => exact ihT _ pst r h
                | error e => exact h
            · rw [if_neg hrp] at h ⊢
              cases ha : argsLoopF n st.advance with
              | none => rw [ha] at h; cases h
              | some q =>
                rw [ha] at h
                rw [ihA st.advance q ha]
                rcases q with ⟨qr, qst⟩
                cases qr with
                | ok args =>
                  dsimp only at h ⊢
                  cases he : expectTokenF n TokenKind.RightParen qst with
                  | none => rw [he] at h; cases h
                  | some p =>
                    rw [he] at h
                    rw [expectTokenF_mono n m (by omega) TokenKind.RightParen
                      qst p he]
                    rcases p with ⟨pr, pst⟩
                    cases pr with
                    | ok tok => exact ihT _ pst r h
                    | error e => exact h
                | error e => exact h
          all_goals exact h
      · -- argsLoopF
        intro st r h
        rw [argsLoopF] at h ⊢
        cases he : parseExpressionF n st with
        | none => rw [he] at h; cases h
        | some p =>
          rw [he] at h
          rw [ihE st p he]
          rcases p with ⟨pr, pst⟩
          cases pr with
          | ok e1 =>
            dsimp only at h ⊢
            by_cases hc : pst.peek_token.kind = some TokenKind.Comma
            · rw [if_pos hc] at h ⊢
              cases ha : argsLoopF n pst.advance with
              | none => rw [ha] at h; cases h
              | some q =>
                rw [ha] at h
                rw [ihA pst.advance q ha]
                exact h
            · rw [if_neg hc] at h ⊢
              exact h
          | error err => exact h


theorem parseExpressionStatementF_mono (fuel fuel' : Nat) (hle : fuel ≤ fuel')
    (st : Parser) (r : Except ParserError Statement × Parser)
    (h : parseExpressionStatementF fuel st = some r) :
    parseExpressionStatementF fuel' st = some r := by
  unfold parseExpressionStatementF at h ⊢
  cases he : parseExpressionF fuel st with
  | none => rw [he] at h; cases h
  | some p =>
    rw [he] at h
    rw [(expBlock_mono fuel fuel' hle).1 st p he]
    exact h

theorem parsePackageDeclarationF_mono (fuel fuel' : Nat) (hle : fuel ≤ fuel')
    (st : Parser) (r : Except ParserError Statement × Parser)
    (h : parsePackageDeclarationF fuel st = some r) :
    parsePackageDeclarationF fuel' st = some r := by
  unfold parsePackageDeclarationF at h ⊢
  cases he : expectTokenF fuel (TokenKind.Keyword Keyword.Package) st with
  | none => rw [he] at h; cases h
  | some p =>
    rw [he] at h
    rw [expectTokenF_mono fuel fuel' hle _ _ _ he]
    rcases p with ⟨pr, pst⟩
    cases pr with
    | ok tok =>
      dsimp only at h ⊢
      cases he2 : expectTokenF fuel TokenKind.Identifier pst with
      | none => rw [he2] at h; cases h
      | some q =>
        rw [he2] at h
        rw [expectTokenF_mono fuel fuel' hle _ _ _ he2]
        exact h
    | error e => exact h

theorem parseImportDeclarationF_mono (fuel fuel' : Nat) (hle : fuel ≤ fuel')
    (st : Parser) (r : Except ParserError Statement × Parser)
    (h : parseImportDeclarationF fuel st = some r) :
    parseImportDeclarationF fuel' st = some r := by
  unfold parseImportDeclarationF at h ⊢
  cases he : expectTokenF fuel (TokenKind.Keyword Keyword.Import) st with
  | none => rw [he] at h; cases h
  | some p =>
    rw [he] at h
    rw [expectTokenF_mono fuel fuel' hle _ _ _ he]
    rcases p with ⟨pr, pst⟩
    cases pr with
    | ok tok =>
      dsimp only at h ⊢
      cases he2 : expectTokenF fuel TokenKind.StringLiteral pst with
      | none => rw [he2] at h; cases h
      | some q =>
        rw [he2] at h
        rw [expectTokenF_mono fuel fuel' hle _ _ _ he2]
        exact h
    | error e => exact h

theorem stmtBlock_mono : ∀ (fuel fuel' : Nat), fuel ≤ fuel' →
    (∀ (st : Parser) (r : Except ParserError Statement × Parser),
      parseStatementF fuel st = some r → parseStatementF fuel' st = some r) ∧
    (∀ (st : Parser) (r : Except ParserError Statement × Parser),
      parseFunctionDeclarationF fuel st = some r →
        parseFunctionDeclarationF fuel' st = some r) ∧
    (∀ (st : Parser) (r : Except ParserError (List Statement) × Parser),
      bodyLoopF fuel st = some r → bodyLoopF fuel' st = some r) := by
  intro fuel
  induction fuel with
  | zero =>
    intro fuel' _
    refine ⟨?_, ?_, ?_⟩
    · intro st r h; simp [parseStatementF] at h
    · intro st r h; simp [parseFunctionDeclarationF] at h
    · intro st r h; simp [bodyLoopF] at h
  | succ n ih =>
    intro fuel' hle
    cases fuel' with
    | zero => omega
    | succ m =>
      obtain ⟨ihS, ihF, ihB⟩ := ih m (by omega)
      refine ⟨?_, ?_, ?_⟩
      · -- parseStatementF
        intro st r h
        rw [parseStatementF] at h ⊢
        cases hk : st.peek_token.kind with
        | none =>
          rw [hk] at h
          exact parseExpressionStatementF_mono n m (by omega) st r h
        | some k =>
          rw [hk] at h
          cases k
          case Keyword kw =>
            cases kw
            case Package => exact parsePackageDeclarationF_mono n m (by omega) st r h
            case Import => exact parseImportDeclarationF_mono n m (by omega) st r h
            case Func => exact ihF st r h
            all_goals exact parseExpressionStatementF_mono n m (by omega) st r h
          all_goals exact parseExpressionStatementF_mono n m (by omega) st r h
      · -- parseFunctionDeclarationF
        intro st r h
        rw [parseFunctionDeclarationF] at h ⊢
        cases he : expectTokenF n (TokenKind.Keyword Keyword.Func) st with
        | none => rw [he] at h; cases h
        | some p =>
          rw [he] at h
          rw [expectTokenF_mono n m (by omega) _ _ _ he]
          rcases p with ⟨pr, pst⟩
          cases pr with
          | error e => exact h
          | ok tok =>
            dsimp only at h ⊢
            cases he2 : expectTokenF n TokenKind.Identifier pst with
            | none => rw [he2] at h; cases h
            | some q =>
              rw [he2] at h
              rw [expectTokenF_mono n m (by omega) _ _ _ he2]
              rcases q with ⟨qr, qst⟩
              cases qr with
              | error e => exact h
              | ok tok2 =>
                dsimp only at h ⊢
                cases he3 : expectTokenF n TokenKind.LeftParen qst with
                | none => rw [he3] at h; cases h
                | some q3 =>
                  rw [he3] at h
                  rw [expectTokenF_mono n m (by omega) _ _ _ he3]
                  rcases q3 with ⟨q3r, q3st⟩
                  cases q3r with
                  | error e => exact h
                  | ok tok3 =>
                    dsimp only at h ⊢
                    cases he4 : expectTokenF n TokenKind.RightParen q3st with
                    | none => rw [he4] at h; cases h
                    | some q4 =>
                      rw [he4] at h
                      rw [expectTokenF_mono n m (by omega) _ _ _ he4]
                      rcases q4 with ⟨q4r, q4st⟩
                      cases q4r with
                      | error e => exact h
                      | ok tok4 =>
                        dsimp only at h ⊢
                        cases he5 : expectTokenF n TokenKind.LeftBrace q4st with
                        | none => rw [he5] at h; cases h
                        | some q5 =>
                          rw [he5] at h
                          rw [expectTokenF_mono n m (by omega) _ _ _ he5]
                          rcases q5 with ⟨q5r, q5st⟩
                          cases q5r with
                          | error e => exact h
                          | ok tok5 =>
                            dsimp only at h ⊢
                            cases hb : bodyLoopF n q5st with
                            | none => rw [hb] at h; cases h
                            | some qb =>
                              rw [hb] at h
                              rw [ihB q5st qb hb]
                              rcases qb with ⟨qbr, qbst⟩
                              cases qbr with
                              | error e => exact h
                              | ok body =>
                                dsimp only at h ⊢
                                cases he7 : expectTokenF n TokenKind.RightBrace
                                    qbst with
                                | none => rw [he7] at h; cases h
                                | some q7 =>
                                  rw [he7] at h
                                  rw [expectTokenF_mono n m (by omega) _ _ _ he7]
                                  exact h
      · -- bodyLoopF
        intro st r h
        rw [bodyLoopF] at h ⊢
        by_cases h1 : st.peek_token.kind = some TokenKind.RightBrace
        · rw [if_pos h1] at h ⊢
          exact h
        · rw [if_neg h1] at h ⊢
          by_cases h2 : st.peek_token.kind = some TokenKind.EOF
          · rw [if_pos h2] at h ⊢
            exact h
          · rw [if_neg h2] at h ⊢
            cases hs : parseStatementF n st with
            | none => rw [hs] at h; cases h
            | some p =>
              rw [hs] at h
              rw [ihS st p hs]
              rcases p with ⟨pr, pst⟩
              cases pr with
              | ok stmt =>
                dsimp only at h ⊢
                cases hb : bodyLoopF n pst with
                | none => rw [hb] at h; cases h
                | some q =>
                  rw [hb] at h
                  rw [ihB pst q hb]
                  exact h
              | error e => exact h

theorem parseLoopF_mono : ∀ (fuel fuel' : Nat), fuel ≤ fuel' →
    ∀ (st : Parser) (acc : List Statement) (r : List Statement × Parser),
    parseLoopF fuel st acc = some r → parseLoopF fuel' st acc = some r := by
  intro fuel
  induction fuel with
  | zero => intro fuel' _ st acc r h; simp [parseLoopF] at h
  | succ n ih =>
    intro fuel' hle st acc r h
    cases fuel' with
    | zero => omega
    | succ m =>
      rw [parseLoopF] at h ⊢
      by_cases hk : st.peek_token.kind = some TokenKind.EOF
      · rw [if_pos hk] at h ⊢
        exact h
      · rw [if_neg hk] at h ⊢
        cases hs : parseStatementF n st with
        | none => rw [hs] at h; cases h
        | some p =>
          rw [hs] at h
          rw [(stmtBlock_mono n m (by omega)).1 st p hs]
          rcases p with ⟨pr, pst⟩
          cases pr with
          | ok stmt => exact ih m (by omega) pst _ r h
          | error e =>
            dsimp only at h ⊢
            cases hsy : synchronizeF n
                { pst with errors := pst.errors ++ [e] } with
            | none => rw [hsy] at h; cases h
            | some st3 =>
              rw [hsy] at h
              rw [synchronizeF_mono n m (by omega) _ _ hsy]
              exact ih m (by omega) _ _ r h


theorem expectTokenF_total (fuel : Nat) (kind : TokenKind) (st : Parser)
    (h : parseMeasure st < fuel) :
    ∃ r st', expectTokenF fuel kind st = some (r, st') := by
  have hy := expectTokenF_isSome fuel kind st h
  cases hx : expectTokenF fuel kind st with
  | none => rw [hx] at hy; cases hy
  | some p => exact ⟨p.1, p.2, rfl⟩

theorem parsePackageDeclarationF_isSome (fuel : Nat) (st : Parser)
    (h : parseMeasure st < fuel) :
    (parsePackageDeclarationF fuel st).isSome = true := by
  obtain ⟨r1, st1, he⟩ := expectTokenF_total fuel (TokenKind.Keyword Keyword.Package) st h
  unfold parsePackageDeclarationF
  rw [he]
  cases r1 with
  | error e => rfl
  | ok tok =>
    dsimp only
    obtain ⟨m1, -, -⟩ := expectTokenF_spec fuel _ st _ _ he
    obtain ⟨r2, st2, he2⟩ := expectTokenF_total fuel TokenKind.Identifier st1
      (Nat.lt_of_le_of_lt m1 h)
    rw [he2]
    cases r2 with
    | error e => rfl
    | ok tok2 =>
      dsimp only
      cases hsemi : handleSemicolonInsertion st2 with
      | mk sr st3 =>
        cases sr with
        | ok pos => rfl
        | error e => rfl

theorem parseImportDeclarationF_isSome (fuel : Nat) (st : Parser)
    (h : parseMeasure st < fuel) :
    (parseImportDeclarationF fuel st).isSome = true := by
  obtain ⟨r1, st1, he⟩ := expectTokenF_total fuel (TokenKind.Keyword Keyword.Import) st h
  unfold parseImportDeclarationF
  rw [he]
  cases r1 with
  | error e => rfl
  | ok tok =>
    dsimp only
    obtain ⟨m1, -, -⟩ := expectTokenF_spec fuel _ st _ _ he
    obtain ⟨r2, st2, he2⟩ := expectTokenF_total fuel TokenKind.StringLiteral st1
      (Nat.lt_of_le_of_lt m1 h)
    rw [he2]
    cases r2 with
    | error e => rfl
    | ok tok2 =>
      dsimp only
      cases hsemi : handleSemicolonInsertion st2 with
      | mk sr st3 =>
        cases sr with
        | ok pos => rfl
        | error e => rfl


theorem parser_sufficiency : ∀ (m : Nat) (st : Parser), parseMeasure st ≤ m →
    (∃ fuel, (parseIdentifierExpressionF fuel st).isSome = true) ∧
    (∃ fuel, (parseExpressionF fuel st).isSome = true) ∧
    (∀ ex, ∃ fuel, (trailerLoopF fuel ex st).isSome = true) ∧
    (∃ fuel, (argsLoopF fuel st).isSome = true) ∧
    (∃ fuel, (parseStatementF fuel st).isSome = true) ∧
    (∃ fuel, (parseFunctionDeclarationF fuel st).isSome = true) ∧
    (∃ fuel, (bodyLoopF fuel st).isSome = true) ∧
    (∀ acc, ∃ fuel, (parseLoopF fuel st acc).isSome = true) := by
  intro m
  induction m using Nat.strong_induction_on with
  | _ m IH =>
    intro st hm
    have hpk_lt : ∀ (k : TokenKind), st.peek_token.kind = some k →
        k ≠ TokenKind.EOF → parseMeasure st.advance < parseMeasure st := by
      intro k hk hne
      refine parseMeasure_advance_lt st ?_
      rw [hk]
      intro hc
      exact hne (Option.some.inj hc)
    have hIdent : ∃ fuel, (parseIdentifierExpressionF fuel st).isSome = true := by
      obtain ⟨r1, st1, he⟩ := expectTokenF_total (parseMeasure st + 1)
        TokenKind.Identifier st (Nat.lt_succ_self _)
      cases r1 with
      | error e =>
        refine ⟨(parseMeasure st + 1) + 1, ?_⟩
        rw [parseIdentifierExpressionF, he]
        rfl
      | ok tok =>
        obtain ⟨-, -, okc⟩ := expectTokenF_spec _ _ _ _ _ he
        obtain ⟨hpk, rfl, -⟩ := okc tok rfl
        have hlt : parseMeasure st.advance < parseMeasure st :=
          hpk_lt _ hpk (by intro hc; cases hc)
        obtain ⟨fT, hT⟩ := (IH (parseMeasure st.advance) (by omega) st.advance
          (Nat.le_refl _)).2.2.1 (Expression.new_identifier tok.value tok.position)
        cases htr : trailerLoopF fT
            (Expression.new_identifier tok.value tok.position) st.advance with
        | none => rw [htr] at hT; cases hT
        | some q =>
          refine ⟨(parseMeasure st + 1) + fT + 1, ?_⟩
          rw [parseIdentifierExpressionF]
          rw [expectTokenF_mono (parseMeasure st + 1) ((parseMeasure st + 1) + fT)
            (by omega) _ _ _ he]
          dsimp only
          rw [(expBlock_mono fT ((parseMeasure st + 1) + fT) (by omega)).2.2.1
            _ _ _ htr]
          rfl
    have hExp : ∃ fuel, (parseExpressionF fuel st).isSome = true := by
      cases hk : st.peek_token.kind with
      | none => exact ⟨0 + 1, by rw [parseExpressionF, hk]; rfl⟩
      | some k =>
        cases k
        case Identifier =>
          obtain ⟨fI, hI⟩ := hIdent
          exact ⟨fI + 1, by rw [parseExpressionF, hk]; exact hI⟩
        case IntegerLiteral =>
          obtain ⟨r1, st1, he⟩ := expectTokenF_total (parseMeasure st + 1)
            TokenKind.IntegerLiteral st (Nat.lt_succ_self _)
          refine ⟨(parseMeasure st + 1) + 1, ?_⟩
          rw [parseExpressionF, hk]
          dsimp only
          rw [he]
          cases r1 with
          | ok tok => rfl
          | error e => rfl
        case StringLiteral =>
          obtain ⟨r1, st1, he⟩ := expectTokenF_total (parseMeasure st + 1)
            TokenKind.StringLiteral st (Nat.lt_succ_self _)
          refine ⟨(parseMeasure st + 1) + 1, ?_⟩
          rw [parseExpressionF, hk]
          dsimp only
          rw [he]
          cases r1 with
          | ok tok => rfl
          | error e => rfl
        all_goals exact ⟨0 + 1, by rw [parseExpressionF, hk]; rfl⟩
    have hTrailer : ∀ ex, ∃ fuel, (trailerLoopF fuel ex st).isSome = true := by
      intro ex
      cases hk : st.peek_token.kind with
      | none => exact ⟨0 + 1, by rw [trailerLoopF, hk]; rfl⟩
      | some k =>
        cases k
        case Dot =>
          have hlt : parseMeasure st.advance < parseMeasure st :=
            hpk_lt _ hk (by intro hc; cases hc)
          obtain ⟨r1, st1, he⟩ := expectTokenF_total (parseMeasure st.advance + 1)
            TokenKind.Identifier st.advance (Nat.lt_succ_self _)
          cases r1 with
          | error e =>
            refine ⟨(parseMeasure st.advance + 1) + 1, ?_⟩
            rw [trailerLoopF, hk]
            dsimp only
            rw [he]
            rfl
          | ok tok =>
            obtain ⟨m1, -, -⟩ := expectTokenF_spec _ _ _ _ _ he
            obtain ⟨fT, hT⟩ := (IH (parseMeasure st.advance) (by omega) st1
              m1).2.2.1 (Expression.new_field_access ex tok.value
                ex.position_start tok.position)
            cases htr : trailerLoopF fT (Expression.new_field_access ex tok.value
                ex.position_start tok.position) st1 with
            | none => rw [htr] at hT; cases hT
            | some q =>
              refine ⟨(parseMeasure st.advance + 1) + fT + 1, ?_⟩
              rw [trailerLoopF, hk]
              dsimp only
              rw [expectTokenF_mono (parseMeasure st.advance + 1)
                ((parseMeasure st.advance + 1) + fT) (by omega) _ _ _ he]
              dsimp only
              rw [(expBlock_mono fT ((parseMeasure st.advance + 1) + fT)
                (by omega)).2.2.1 _ _ _ htr]
              rfl
        case LeftParen =>
          have hlt : parseMeasure st.advance < parseMeasure st :=
            hpk_lt _ hk (by intro hc; cases hc)
          by_cases hrp : st.advance.peek_token.kind = some TokenKind.RightParen
          · obtain ⟨r1, st1, he⟩ := expectTokenF_total (parseMeasure st.advance + 1)
              TokenKind.RightParen st.advance (Nat.lt_succ_self _)
            cases r1 with
            | error e =>
              refine ⟨(parseMeasure st.advance + 1) + 1, ?_⟩
              rw [trailerLoopF, hk]
              dsimp only
              rw [if_pos hrp]
              dsimp only
              rw [he]
              rfl
            | ok tok =>
              obtain ⟨m1, -, -⟩ := expectTokenF_spec _ _ _ _ _ he
              obtain ⟨fT, hT⟩ := (IH (parseMeasure st.advance) (by omega) st1
                m1).2.2.1 (Expression.new_function_call ex [] ex.position_start
                  tok.position)
              cases htr : trailerLoopF fT (Expression.new_function_call ex []
                  ex.position_start tok.position) st1 with
              | none => rw [htr] at hT; cases hT
              | some q =>
                refine ⟨(parseMeasure st.advance + 1) + fT + 1, ?_⟩
                rw [trailerLoopF, hk]
                dsimp only
                rw [if_pos hrp]
                dsimp only
                rw [expectTokenF_mono (parseMeasure st.advance + 1)
                  ((parseMeasure st.advance + 1) + fT) (by omega) _ _ _ he]
                dsimp only
                rw [(expBlock_mono fT ((parseMeasure st.advance + 1) + fT)
                  (by omega)).2.2.1 _ _ _ htr]
                rfl
          · obtain ⟨fA, hA⟩ := (IH (parseMeasure st.advance) (by omega)
              st.advance (Nat.le_refl _)).2.2.2.1
            cases hav : argsLoopF fA st.advance with
            | none => rw [hav] at hA; cases hA
            | some q =>
              rcases q with ⟨qr, qst⟩
              cases qr with
              | error e =>
                refine ⟨fA + 1, ?_⟩
                rw [trailerLoopF, hk]
                dsimp only
                rw [if_neg hrp]
                rw [hav]
                rfl
              | ok args =>
                obtain ⟨mA, -⟩ := (expBlock_spec fA).2.2.2 st.advance _ _ hav
                obtain ⟨r1, st1, he⟩ := expectTokenF_total
                  (parseMeasure st.advance + 1) TokenKind.RightParen qst
                  (by omega)
                cases r1 with
                | error e =>
                  refine ⟨fA + (parseMeasure st.advance + 1) + 1, ?_⟩
                  rw [trailerLoopF, hk]
                  dsimp only
                  rw [if_neg hrp]
                  rw [(expBlock_mono fA (fA + (parseMeasure st.advance + 1))
                    (by omega)).2.2.2 _ _ hav]
                  dsimp only
                  rw [expectTokenF_mono (parseMeasure st.advance + 1)
                    (fA + (parseMeasure st.advance + 1)) (by omega) _ _ _ he]
                  rfl
                | ok tok =>
                  obtain ⟨m1, -, -⟩ := expectTokenF_spec _ _ _ _ _ he
                  obtain ⟨fT, hT⟩ := (IH (parseMeasure st.advance) (by omega) st1
                    (Nat.le_trans m1 mA)).2.2.1 (Expression.new_function_call ex
                      args ex.position_start tok.position)
                  cases htr : trailerLoopF fT (Expression.new_function_call ex
                      args ex.position_start tok.position) st1 with
                  | none => rw [htr] at hT; cases hT
                  | some q2 =>
                    refine ⟨fA + (parseMeasure st.advance + 1) + fT + 1, ?_⟩
                    rw [trailerLoopF, hk]
                    dsimp only
                    rw [if_neg hrp]
                    rw [(expBlock_mono fA
                      (fA + (parseMeasure st.advance + 1) + fT)
                      (by omega)).2.2.2 _ _ hav]
                    dsimp only
                    rw [expectTokenF_mono (parseMeasure st.advance + 1)
                      (fA + (parseMeasure st.advance + 1) + fT) (by omega)
                      _ _ _ he]
                    dsimp only
                    rw [(expBlock_mono fT
                      (fA + (parseMeasure st.advance + 1) + fT)
                      (by omega)).2.2.1 _ _ _ htr]
                    rfl
        all_goals exact ⟨0 + 1, by rw [trailerLoopF, hk]; rfl⟩
    have hArgs : ∃ fuel, (argsLoopF fuel st).isSome = true := by
      obtain ⟨fE, hE⟩ := hExp
      cases hev : parseExpressionF fE st with
      | none => rw [hev] at hE; cases hE
      | some p =>
        rcases p with ⟨pr, pst⟩
        cases pr with
        | error err =>
          refine ⟨fE + 1, ?_⟩
          rw [argsLoopF, hev]
          rfl
        | ok e1 =>
          obtain ⟨-, -, sE⟩ := (expBlock_spec fE).1 st _ _ hev
          have hlt : parseMeasure pst < parseMeasure st := sE e1 rfl
          by_cases hc : pst.peek_token.kind = some TokenKind.Comma
          · obtain ⟨fA, hA⟩ := (IH (parseMeasure pst) (by omega) pst.advance
              (parseMeasure_advance_le pst)).2.2.2.1
            cases hav : argsLoopF fA pst.advance with
            | none => rw [hav] at hA; cases hA
            | some q =>
              rcases q with ⟨qr, qst⟩
              refine ⟨fE + fA + 1, ?_⟩
              rw [argsLoopF]
              rw [(expBlock_mono fE (fE + fA) (by omega)).1 _ _ hev]
              dsimp only
              rw [if_pos hc]
              rw [(expBlock_mono fA (fE + fA) (by omega)).2.2.2 _ _ hav]
              cases qr with
              | ok es => rfl
              | error e => rfl
          · refine ⟨fE + 1, ?_⟩
            rw [argsLoopF, hev]
            dsimp only
            rw [if_neg hc]
            rfl
    have hFunc : ∃ fuel, (parseFunctionDeclarationF fuel st).isSome = true := by
      obtain ⟨r1, st1, he1⟩ := expectTokenF_total (parseMeasure st + 1)
        (TokenKind.Keyword Keyword.Func) st (Nat.lt_succ_self _)
      cases r1 with
      | error e =>
        refine ⟨(parseMeasure st + 1) + 1, ?_⟩
        rw [parseFunctionDeclarationF, he1]
        rfl
      | ok tok1 =>
        obtain ⟨-, -, okc1⟩ := expectTokenF_spec _ _ _ _ _ he1
        obtain ⟨hpk1, rfl, -⟩ := okc1 tok1 rfl
        have hlt1 : parseMeasure st.advance < parseMeasure st :=
          hpk_lt _ hpk1 (by intro hc; cases hc)
        obtain ⟨r2, st2, he2⟩ := expectTokenF_total (parseMeasure st + 1)
          TokenKind.Identifier st.advance (by omega)
        cases r2 with
        | error e =>
          refine ⟨(parseMeasure st + 1) + 1, ?_⟩
          rw [parseFunctionDeclarationF, he1]
          dsimp only
          rw [he2]
          rfl
        | ok tok2 =>
          obtain ⟨m2, -, -⟩ := expectTokenF_spec _ _ _ _ _ he2
          obtain ⟨r3, st3, he3⟩ := expectTokenF_total (parseMeasure st + 1)
            TokenKind.LeftParen st2 (by omega)
          cases r3 with
          | error e =>
            refine ⟨(parseMeasure st + 1) + 1, ?_⟩
            rw [parseFunctionDeclarationF, he1]
            dsimp only
            rw [he2]
            dsimp only
            rw [he3]
            rfl
          | ok tok3 =>
            obtain ⟨m3, -, -⟩ := expectTokenF_spec _ _ _ _ _ he3
            obtain ⟨r4, st4, he4⟩ := expectTokenF_total (parseMeasure st + 1)
              TokenKind.RightParen st3 (by omega)
            cases r4 with
            | error e =>
              refine ⟨(parseMeasure st + 1) + 1, ?_⟩
              rw [parseFunctionDeclarationF, he1]
              dsimp only
              rw [he2]
              dsimp only
              rw [he3]
              dsimp only
              rw [he4]
              rfl
            | ok tok4 =>
              obtain ⟨m4, -, -⟩ := expectTokenF_spec _ _ _ _ _ he4
              obtain ⟨r5, st5, he5⟩ := expectTokenF_total (parseMeasure st + 1)
                TokenKind.LeftBrace st4 (by omega)
              cases r5 with
              | error e =>
                refine ⟨(parseMeasure st + 1) + 1, ?_⟩
                rw [parseFunctionDeclarationF, he1]
                dsimp only
                rw [he2]
                dsimp only
                rw [he3]
                dsimp only
                rw [he4]
                dsimp only
                rw [he5]
                rfl
              | ok tok5 =>
                obtain ⟨m5, -, -⟩ := expectTokenF_spec _ _ _ _ _ he5
                obtain ⟨fB, hB⟩ := (IH (parseMeasure st5)
                  (by omega) st5 (Nat.le_refl _)).2.2.2.2.2.2.1
                cases hbv : bodyLoopF fB st5 with
                | none => rw [hbv] at hB; cases hB
                | some qb =>
                  rcases qb with ⟨qbr, qbst⟩
                  cases qbr with
                  | error e =>
                    refine ⟨(parseMeasure st + 1) + fB + 1, ?_⟩
                    rw [parseFunctionDeclarationF]
                    rw [expectTokenF_mono (parseMeasure st + 1)
                      ((parseMeasure st + 1) + fB) (by omega) _ _ _ he1]
                    dsimp only
                    rw [expectTokenF_mono (parseMeasure st + 1)
                      ((parseMeasure st + 1) + fB) (by omega) _ _ _ he2]
                    dsimp only
                    rw [expectTokenF_mono (parseMeasure st + 1)
                      ((parseMeasure st + 1) + fB) (by omega) _ _ _ he3]
                    dsimp only
                    rw [expectTokenF_mono (parseMeasure st + 1)
                      ((parseMeasure st + 1) + fB) (by omega) _ _ _ he4]
                    dsimp only
                    rw [expectTokenF_mono (parseMeasure st + 1)
                      ((parseMeasure st + 1) + fB) (by omega) _ _ _ he5]
                    dsimp only
                    rw [(stmtBlock_mono fB ((parseMeasure st + 1) + fB)
                      (by omega)).2.2 _ _ hbv]
                    rfl
                  | ok body =>
                    obtain ⟨mB, -⟩ := (stmtBlock_spec fB).2.2 st5 _ _ hbv
                    obtain ⟨r7, st7, he7⟩ := expectTokenF_total
                      (parseMeasure st + 1) TokenKind.RightBrace qbst (by omega)
                    refine ⟨(parseMeasure st + 1) + fB + 1, ?_⟩
                    rw [parseFunctionDeclarationF]
                    rw [expectTokenF_mono (parseMeasure st + 1)
                      ((parseMeasure st + 1) + fB) (by omega) _ _ _ he1]
                    dsimp only
                    rw [expectTokenF_mono (parseMeasure st + 1)
                      ((parseMeasure st + 1) + fB) (by omega) _ _ _ he2]
                    dsimp only
                    rw [expectTokenF_mono (parseMeasure st + 1)
                      ((parseMeasure st + 1) + fB) (by omega) _ _ _ he3]
                    dsimp only
                    rw [expectTokenF_mono (parseMeasure st + 1)
                      ((parseMeasure st + 1) + fB) (by omega) _ _ _ he4]
                    dsimp only
                    rw [expectTokenF_mono (parseMeasure st + 1)
                      ((parseMeasure st + 1) + fB) (by omega) _ _ _ he5]
                    dsimp only
                    rw [(stmtBlock_mono fB ((parseMeasure st + 1) + fB)
                      (by omega)).2.2 _ _ hbv]
                    dsimp only
                    rw [expectTokenF_mono (parseMeasure st + 1)
                      ((parseMeasure st + 1) + fB) (by omega) _ _ _ he7]
                    cases r7 with
                    | ok tok7 => rfl
                    | error e => rfl
    have hExpStmt : ∃ fuel, (parseExpressionStatementF fuel st).isSome = true := by
      obtain ⟨fE, hE⟩ := hExp
      cases hev : parseExpressionF fE st with
      | none => rw [hev] at hE; cases hE
      | some p =>
        rcases p with ⟨pr, pst⟩
        refine ⟨fE, ?_⟩
        unfold parseExpressionStatementF
        rw [hev]
        cases pr with
        | error e => rfl
        | ok e1 =>
          dsimp only
          cases hsemi : handleSemicolonInsertion pst with
          | mk sr st3 =>
            cases sr with
            | ok pos => rfl
            | error e => rfl
    have hStmt : ∃ fuel, (parseStatementF fuel st).isSome = true := by
      cases hk : st.peek_token.kind with
      | none =>
        obtain ⟨fS, hS⟩ := hExpStmt
        exact ⟨fS + 1, by rw [parseStatementF, hk]; exact hS⟩
      | some k =>
        cases k
        case Keyword kw =>
          cases kw
          case Package =>
            refine ⟨(parseMeasure st + 1) + 1, ?_⟩
            rw [parseStatementF, hk]
            exact parsePackageDeclarationF_isSome _ _ (Nat.lt_succ_self _)
          case Import =>
            refine ⟨(parseMeasure st + 1) + 1, ?_⟩
            rw [parseStatementF, hk]
            exact parseImportDeclarationF_isSome _ _ (Nat.lt_succ_self _)
          case Func =>
            obtain ⟨fF, hF⟩ := hFunc
            exact ⟨fF + 1, by rw [parseStatementF, hk]; exact hF⟩
          all_goals
            obtain ⟨fS, hS⟩ := hExpStmt
          all_goals
            exact ⟨fS + 1, by rw [parseStatementF, hk]; exact hS⟩
        all_goals
          obtain ⟨fS, hS⟩ := hExpStmt
        all_goals
          exact ⟨fS + 1, by rw [parseStatementF, hk]; exact hS⟩
    have hBody : ∃ fuel, (bodyLoopF fuel st).isSome = true := by
      by_cases h1 : st.peek_token.kind = some TokenKind.RightBrace
      · exact ⟨0 + 1, by rw [bodyLoopF, if_pos h1]; rfl⟩
      · by_cases h2 : st.peek_token.kind = some TokenKind.EOF
        · exact ⟨0 + 1, by rw [bodyLoopF, if_neg h1, if_pos h2]; rfl⟩
        · obtain ⟨fS, hS⟩ := hStmt
          cases hsv : parseStatementF fS st with
          | none => rw [hsv] at hS; cases hS
          | some p =>
            rcases p with ⟨pr, pst⟩
            cases pr with
            | error e =>
              refine ⟨fS + 1, ?_⟩
              rw [bodyLoopF, if_neg h1, if_neg h2, hsv]
              rfl
            | ok stmt =>
              obtain ⟨-, -, sS⟩ := (stmtBlock_spec fS).1 st _ _ hsv
              have hlt : parseMeasure pst < parseMeasure st := sS stmt rfl
              obtain ⟨fB, hB⟩ := (IH (parseMeasure pst) (by omega) pst
                (Nat.le_refl _)).2.2.2.2.2.2.1
              cases hbv : bodyLoopF fB pst with
              | none => rw [hbv] at hB; cases hB
              | some q =>
                rcases q with ⟨qr, qst⟩
                refine ⟨fS + fB + 1, ?_⟩
                rw [bodyLoopF, if_neg h1, if_neg h2]
                rw [(stmtBlock_mono fS (fS + fB) (by omega)).1 _ _ hsv]
                dsimp only
                rw [(stmtBlock_mono fB (fS + fB) (by omega)).2.2 _ _ hbv]
                cases qr with
                | ok stmts => rfl
                | error e => rfl
    have hLoop : ∀ acc, ∃ fuel, (parseLoopF fuel st acc).isSome = true := by
      intro acc
      by_cases hk : st.peek_token.kind = some TokenKind.EOF
      · exact ⟨0 + 1, by rw [parseLoopF, if_pos hk]; rfl⟩
      · obtain ⟨fS, hS⟩ := hStmt
        cases hsv : parseStatementF fS st with
        | none => rw [hsv] at hS; cases hS
        | some p =>
          rcases p with ⟨pr, pst⟩
          cases pr with
          | ok stmt =>
            obtain ⟨-, -, sS⟩ := (stmtBlock_spec fS).1 st _ _ hsv
            have hlt : parseMeasure pst < parseMeasure st := sS stmt rfl
            obtain ⟨fL, hL⟩ := (IH (parseMeasure pst) (by omega) pst
              (Nat.le_refl _)).2.2.2.2.2.2.2 (acc ++ [stmt])
            cases hlv : parseLoopF fL pst (acc ++ [stmt]) with
            | none => rw [hlv] at hL; cases hL
            | some q =>
              refine ⟨fS + fL + 1, ?_⟩
              rw [parseLoopF, if_neg hk]
              rw [(stmtBlock_mono fS (fS + fL) (by omega)).1 _ _ hsv]
              dsimp only
              rw [parseLoopF_mono fL (fS + fL) (by omega) _ _ _ hlv]
              rfl
          | error e =>
            obtain ⟨mS, -, -⟩ := (stmtBlock_spec fS).1 st _ _ hsv
            have hsy := synchronizeF_isSome (parseMeasure pst + 1)
              { pst with errors := pst.errors ++ [e] } (Nat.lt_succ_self _)
            cases hsyv : synchronizeF (parseMeasure pst + 1)
                { pst with errors := pst.errors ++ [e] } with
            | none => rw [hsyv] at hsy; cases hsy
            | some st3 =>
              obtain ⟨m3, -, k3⟩ := synchronizeF_spec _ _ _ hsyv
              have m3' : parseMeasure st3 ≤ parseMeasure pst := m3
              by_cases hk3 : st3.peek_token.kind = some TokenKind.EOF
              · have hend : parseLoopF (0 + 1) st3 acc = some (acc, st3) := by
                  rw [parseLoopF, if_pos hk3]
                refine ⟨fS + (parseMeasure pst + 1) + (0 + 1) + 1, ?_⟩
                rw [parseLoopF, if_neg hk]
                rw [(stmtBlock_mono fS (fS + (parseMeasure pst + 1) + (0 + 1))
                  (by omega)).1 _ _ hsv]
                dsimp only
                rw [synchronizeF_mono (parseMeasure pst + 1)
                  (fS + (parseMeasure pst + 1) + (0 + 1)) (by omega) _ _ hsyv]
                dsimp only
                rw [if_neg (show ¬ st3.peek_token.kind ≠ some TokenKind.EOF by
                  simp [hk3])]
                rw [parseLoopF_mono (0 + 1)
                  (fS + (parseMeasure pst + 1) + (0 + 1)) (by omega) _ _ _ hend]
                rfl
              · have hk3' : st3.peek_token.kind = some TokenKind.Semicolon := by
                  cases k3 with
                  | inl hc => exact absurd hc hk3
                  | inr hc => exact hc
                have hlt4 : parseMeasure st3.advance < parseMeasure st3 := by
                  refine parseMeasure_advance_lt st3 ?_
                  rw [hk3']
                  intro hc
                  cases hc
                obtain ⟨fL, hL⟩ := (IH (parseMeasure st3.advance)
                  (by omega) st3.advance (Nat.le_refl _)).2.2.2.2.2.2.2 acc
                cases hlv : parseLoopF fL st3.advance acc with
                | none => rw [hlv] at hL; cases hL
                | some q =>
                  refine ⟨fS + (parseMeasure pst + 1) + fL + 1, ?_⟩
                  rw [parseLoopF, if_neg hk]
                  rw [(stmtBlock_mono fS (fS + (parseMeasure pst + 1) + fL)
                    (by omega)).1 _ _ hsv]
                  dsimp only
                  rw [synchronizeF_mono (parseMeasure pst + 1)
                    (fS + (parseMeasure pst + 1) + fL) (by omega) _ _ hsyv]
                  dsimp only
                  rw [if_pos hk3]
                  rw [parseLoopF_mono fL (fS + (parseMeasure pst + 1) + fL)
                    (by omega) _ _ _ hlv]
                  rfl
    exact ⟨hIdent, hExp, hTrailer, hArgs, hStmt, hFunc, hBody, hLoop⟩


theorem parseF_total : ∀ (st : Parser), ∃ fuel r, parseF fuel st = some r := by
  intro st
  by_cases he : st.errors = []
  · obtain ⟨fL, hL⟩ := (parser_sufficiency (parseMeasure st) st
      (Nat.le_refl _)).2.2.2.2.2.2.2 []
    cases hlv : parseLoopF fL st [] with
    | none => rw [hlv] at hL; cases hL
    | some q =>
      rcases q with ⟨stmts, st1⟩
      refine ⟨fL, (Except.ok ⟨stmts⟩, st1), ?_⟩
      unfold parseF
      rw [if_neg (by simp [he])]
      rw [hlv]
  · exact ⟨0, (Except.error st.errors, st), by unfold parseF; rw [if_pos he]⟩

end Parser

/-! ## Helper lemmas for the claims -/

namespace Lexer

/-- The destructive lookahead loop preserves the input and only appends
to the error list. -/
theorem peekTokensGo_frame : ∀ (n : Nat) (st : Lexer),
    (peekTokensGo n st).2.input = st.input ∧
    st.errors <+: (peekTokensGo n st).2.errors := by
  intro n
  induction n with
  | zero => intro st; exact ⟨rfl, List.prefix_refl _⟩
  | succ k ih =>
    intro st
    obtain ⟨f1, f2, -, -, -⟩ := nextToken_facts st
    rw [peekTokensGo]
    cases hnt : st.nextToken with
    | mk t st1 =>
      rw [hnt] at f1 f2
      dsimp only
      cases hgo : peekTokensGo k st1 with
      | mk ts st2 =>
        obtain ⟨g1, g2⟩ := ih st1
        rw [hgo] at g1 g2
        dsimp only
        exact ⟨g1.trans f1, f2.trans g2⟩

end Lexer

/-! ## The claims -/

/-- Claim C1: `parse` returns the error list exactly when errors were
already present before parsing began (returning them unchanged);
otherwise it returns `Ok` with a best-effort `Program`, the parser's
error list only ever grows (append-only, detection order), and the
statement accumulator of the parse loop is never truncated by a later
error. -/
theorem parse_error_list_and_best_effort :
    (∀ (fuel : Nat) (st : Parser) (r : Except (List ParserError) Program)
        (st' : Parser), Parser.parseF fuel st = some (r, st') →
      (st.errors ≠ [] → r = Except.error st.errors ∧ st' = st) ∧
      (st.errors = [] → (∃ prog, r = Except.ok prog) ∧ st.errors <+: st'.errors)) ∧
    (∀ (fuel : Nat) (st : Parser) (acc stmts : List Statement) (st' : Parser),
      Parser.parseLoopF fuel st acc = some (stmts, st') →
      acc <+: stmts ∧ st.errors <+: st'.errors) := by
  constructor
  · intro fuel st r st' h
    unfold Parser.parseF at h
    by_cases he : st.errors = []
    · rw [if_neg (by simp [he])] at h
      cases hlv : Parser.parseLoopF fuel st [] with
      | none => rw [hlv] at h; cases h
      | some q =>
        rw [hlv] at h
        rcases q with ⟨stmts, st1⟩
        simp only [Option.some.injEq, Prod.mk.injEq] at h
        obtain ⟨rfl, rfl⟩ := h
        obtain ⟨-, p, -⟩ := Parser.parseLoopF_spec fuel st [] stmts st1 hlv
        exact ⟨fun hc => absurd he hc, fun _ => ⟨⟨⟨stmts⟩, rfl⟩, p⟩⟩
    · rw [if_pos he] at h
      simp only [Option.some.injEq, Prod.mk.injEq] at h
      obtain ⟨rfl, rfl⟩ := h
      exact ⟨fun _ => ⟨rfl, rfl⟩, fun hc => absurd hc he⟩
  · intro fuel st acc stmts st' h
    obtain ⟨-, p, a⟩ := Parser.parseLoopF_spec fuel st acc stmts st' h
    exact ⟨a, p⟩

/-- Claim C1, witness: the contract instantiated on the empty input. -/
theorem parse_error_list_and_best_effort_witness :
    ((Parser.new []).errors ≠ [] →
      (Except.ok (⟨[]⟩ : Program) : Except (List ParserError) Program) =
        Except.error (Parser.new []).errors ∧ Parser.new [] = Parser.new []) ∧
    ((Parser.new []).errors = [] →
      (∃ prog, (Except.ok (⟨[]⟩ : Program) : Except (List ParserError) Program) =
        Except.ok prog) ∧ (Parser.new []).errors <+: (Parser.new []).errors) :=
  parse_error_list_and_best_effort.1 (0 + 1) (Parser.new []) _ _ (by rfl)

/-- Claim C2, counterexample: a newline inside an open string literal is
consumed as ordinary content — the scan of `"a<newline>b"` produces one
`StringLiteral` token (newline included) and records no error at all,
contradicting the claimed `UnterminatedString`-at-newline behaviour. -/
theorem newline_in_string_is_content_cex :
    ((scanAll "\"a\nb\"".data).1.map (fun t => (t.kind, t.value))) =
      [(some TokenKind.StringLiteral, "\"a\nb\"".data),
       (some TokenKind.EOF, [])] ∧
    (scanAll "\"a\nb\"".data).2.errors = [] := by decide

/-- Claim C2 (amended): while a string literal is open, the
`UnterminatedString` error is raised only when the scan reaches
end-of-input: there the tokenizer records the error (whose payload is the
open lexeme), returns a token with no kind and empty value, and resets
the string-parsing flag; a newline before the closing quote is ordinary
content (the scan of `"a<newline>b"` yields a single string token). -/
theorem unterminated_string_error_at_eof :
    (∀ st : Lexer, st.input.length ≤ st.current_position →
      st.is_parsing_string = true →
      st.nextToken.1.kind = none ∧ st.nextToken.1.value = [] ∧
      st.nextToken.2.errors = st.errors ++
        [LexerError.new (.UnterminatedString (st.proposed_token false))
          st.current_token_position] ∧
      st.nextToken.2.is_parsing_string = false) ∧
    ((scanAll "\"a\nb\"".data).1.map Token.kind =
      [some TokenKind.StringLiteral, some TokenKind.EOF]) := by
  constructor
  · intro st h1 h2
    have hg : st.input.get? st.current_position = none := List.get?_eq_none.mpr h1
    unfold Lexer.nextToken
    rw [show st.lexFuel = st.input.length - st.current_position + 1 from rfl]
    rw [Lexer.nextTokenF]
    simp only [hg]
    rw [if_pos h2]
    dsimp only [Option.getD]
    refine ⟨?_, rfl, rfl, rfl⟩
    rw [Lexer.Token_new_kind]
    exact Lexer.fromStr_nil
  · decide

/-- Claim C2, witness: the end-of-input case applied to the concrete
exhausted scanner state of the input `"a` (string still open). -/
theorem unterminated_string_error_at_eof_witness :
    (Lexer.nextToken ⟨"\"a".data, 2, 0, [], true, false, false⟩).1.kind = none ∧
    (Lexer.nextToken ⟨"\"a".data, 2, 0, [], true, false, false⟩).1.value = [] ∧
    (Lexer.nextToken ⟨"\"a".data, 2, 0, [], true, false, false⟩).2.errors =
      [] ++ [LexerError.new (.UnterminatedString
        (Lexer.proposed_token ⟨"\"a".data, 2, 0, [], true, false, false⟩ false))
        (Lexer.current_token_position
          ⟨"\"a".data, 2, 0, [], true, false, false⟩)] ∧
    (Lexer.nextToken
      ⟨"\"a".data, 2, 0, [], true, false, false⟩).2.is_parsing_string = false :=
  unterminated_string_error_at_eof.1 ⟨"\"a".data, 2, 0, [], true, false, false⟩
    (by decide) rfl

/-- Claim C3, counterexample: `peek_tokens` is not error-transparent —
peeking one token ahead on the input `"a` (an unterminated string)
records an `UnterminatedString` error that survives the state
restoration, so the observable `errors()` list does change. -/
theorem peek_tokens_errors_changed_cex :
    (Lexer.peekTokens 1 (Lexer.new "\"a".data)).2.errors ≠
      (Lexer.new "\"a".data).errors := by decide

/-- Claim C3 (amended): `peek_tokens` restores the scanner offset, the
anchor and both literal-parsing flags (and never touches the input), so
a subsequent `next_token` returns exactly the token it would have
returned without the peek; but the error list is only append-only across
the peek (errors found while peeking are kept, in scan order), and the
newline flag may also change. -/
theorem peek_tokens_restores_scan_state :
    ∀ (n : Nat) (st : Lexer),
      (Lexer.peekTokens n st).2.input = st.input ∧
      (Lexer.peekTokens n st).2.current_position = st.current_position ∧
      (Lexer.peekTokens n st).2.anchor = st.anchor ∧
      (Lexer.peekTokens n st).2.is_parsing_string = st.is_parsing_string ∧
      (Lexer.peekTokens n st).2.is_parsing_rune = st.is_parsing_rune ∧
      st.errors <+: (Lexer.peekTokens n st).2.errors ∧
      ((Lexer.peekTokens n st).2.nextToken).1 = (st.nextToken).1 := by
  intro n st
  obtain ⟨hi, hp⟩ := Lexer.peekTokensGo_frame n st
  cases hgo : Lexer.peekTokensGo n st with
  | mk ts stGo =>
    rw [hgo] at hi hp
    have hpt : Lexer.peekTokens n st =
        (ts, { stGo with
               current_position := st.current_position,
               anchor := st.anchor,
               is_parsing_string := st.is_parsing_string,
               is_parsing_rune := st.is_parsing_rune }) := by
      unfold Lexer.peekTokens
      rw [hgo]
    rw [hpt]
    refine ⟨hi, rfl, rfl, rfl, rfl, hp, ?_⟩
    have hres : ({ stGo with
        current_position := st.current_position,
        anchor := st.anchor,
        is_parsing_string := st.is_parsing_string,
        is_parsing_rune := st.is_parsing_rune } : Lexer) =
        { st with
          errors := stGo.errors,
          newline_before_current_token := stGo.newline_before_current_token } := by
      cases st
      cases stGo
      dsimp only at hi
      rw [hi]
    rw [hres]
    cases hnt : st.nextToken with
    | mk t stX =>
      have hF : Lexer.nextTokenF st.lexFuel st = some (t, stX) := by
        rw [Lexer.nextToken_eq, hnt]
      obtain ⟨E2, N2, hF2⟩ := Lexer.nextTokenF_frame st.lexFuel st stGo.errors
        stGo.newline_before_current_token t stX hF
      unfold Lexer.nextToken
      rw [show Lexer.lexFuel { st with
        errors := stGo.errors,
        newline_before_current_token := stGo.newline_before_current_token } =
          st.lexFuel from rfl]
      rw [hF2]
      rfl

/-- Claim C4: every multi-character operator/punctuation (or keyword)
string of the fixed token table, given alone as the whole input, scans
to exactly one token carrying the table's kind for the full string
(maximal munch), followed by `EOF` with no recorded errors. -/
theorem multi_char_operators_maximal_munch :
    ∀ p ∈ TokenKind.fixedTable, 2 ≤ p.1.length →
      (Lexer.new p.1).nextToken.1.kind = some p.2 ∧
      (Lexer.new p.1).nextToken.1.value = p.1 ∧
      (Lexer.new p.1).nextToken.2.nextToken.1.kind = some TokenKind.EOF ∧
      (Lexer.new p.1).nextToken.2.nextToken.2.errors = [] := by decide

/-- Claim C4, witness: the table entry `<<=` scans as one
`LessLessEqual` token, then `EOF`, with no errors. -/
theorem multi_char_operators_maximal_munch_witness :
    (Lexer.new "<<=".data).nextToken.1.kind = some TokenKind.LessLessEqual ∧
    (Lexer.new "<<=".data).nextToken.1.value = "<<=".data ∧
    (Lexer.new "<<=".data).nextToken.2.nextToken.1.kind = some TokenKind.EOF ∧
    (Lexer.new "<<=".data).nextToken.2.nextToken.2.errors = [] :=
  multi_char_operators_maximal_munch ("<<=".data, TokenKind.LessLessEqual)
    (by decide) (by decide)

/-- Claim C5: `println\nprintln\nprintln` parses to three expression
statements with zero errors, `println println` (same line) parses with
exactly one recorded error, and semicolon insertion accepts a statement
boundary exactly when the lookahead is `;`, the lookahead is `EOF`, or
the tokenizer recorded a newline before the current token. -/
theorem asi_boundary_requires_newline_semicolon_or_eof :
    viewResult (Parser.parseF 100 (Parser.new "println\nprintln\nprintln".data)) =
      some ⟨true, 3, true, []⟩ ∧
    (viewResult (Parser.parseF 100 (Parser.new "println println".data))).map
      (fun v => (v.isOk, v.statementCount, v.errors.length)) =
      some (true, 0, 1) ∧
    (∀ st : Parser, (∃ p, (st.handleSemicolonInsertion).1 = Except.ok p) ↔
      (st.peek_token.kind = some TokenKind.Semicolon ∨
       st.peek_token.kind = some TokenKind.EOF ∨
       st.lexer.newline_before_current_token = true)) := by
  refine ⟨by decide, by decide, ?_⟩
  intro st
  constructor
  · rintro ⟨p, hp⟩
    by_cases h1 : st.peek_token.kind = some TokenKind.Semicolon
    · exact Or.inl h1
    · right
      unfold Parser.handleSemicolonInsertion at hp
      rw [if_neg h1] at hp
      unfold Parser.isEndOfLine at hp
      by_cases h2 : st.peek_token.kind = some TokenKind.EOF
      · exact Or.inl h2
      · right
        rw [if_neg h2] at hp
        unfold Lexer.had_newline_before_current_token at hp
        dsimp only at hp
        by_cases h3 : st.lexer.newline_before_current_token = true
        · exact h3
        · rw [Lexer.bool_false_of_not_true h3] at hp
          simp at hp
  · intro h
    by_cases h1 : st.peek_token.kind = some TokenKind.Semicolon
    · show ∃ p, (st.handleSemicolonInsertion).1 = Except.ok p
      unfold Parser.handleSemicolonInsertion
      rw [if_pos h1]
      exact ⟨_, rfl⟩
    · rcases h with h | h | h
      · exact absurd h h1
      · show ∃ p, (st.handleSemicolonInsertion).1 = Except.ok p
        unfold Parser.handleSemicolonInsertion
        rw [if_neg h1]
        unfold Parser.isEndOfLine
        rw [if_pos h]
        exact ⟨_, rfl⟩
      · show ∃ p, (st.handleSemicolonInsertion).1 = Except.ok p
        unfold Parser.handleSemicolonInsertion
        rw [if_neg h1]
        unfold Parser.isEndOfLine
        by_cases h2 : st.peek_token.kind = some TokenKind.EOF
        · rw [if_pos h2]
          exact ⟨_, rfl⟩
        · rw [if_neg h2]
          unfold Lexer.had_newline_before_current_token
          dsimp only
          rw [h]
          exact ⟨_, rfl⟩

/-- Claim C6, counterexample: on the input `'"` the second `next_token`
call returns a non-`EOF` token while consuming no input character at
all (the position does not move), refuting the claimed
at-least-one-character progress of every non-`EOF` call. -/
theorem next_token_zero_progress_cex :
    (Lexer.new "'\"".data).nextToken.2.nextToken.1.kind ≠ some TokenKind.EOF ∧
    (Lexer.new "'\"".data).nextToken.2.nextToken.2.current_position =
      (Lexer.new "'\"".data).nextToken.2.current_position := by decide

/-- Claim C6 (amended): every `next_token` call either returns `EOF` or
strictly decreases the scan measure (remaining input plus open literal
modes plus pending anchor deficit) — so repeated calls reach `EOF`
within `lexMeasure` steps even though a call need not consume an input
character — and on the parser side `synchronize` always terminates at a
`;`/`EOF` lookahead and `parse` terminates on every input. -/
theorem scan_and_parse_terminate :
    (∀ st : Lexer, st.nextToken.1.kind = some TokenKind.EOF ∨
      Lexer.lexMeasure st.nextToken.2 < Lexer.lexMeasure st) ∧
    (∀ st : Lexer, ((scanGo (Lexer.lexMeasure st + 1) st).1.getLast?.map
      Token.kind) = some (some TokenKind.EOF)) ∧
    (∀ st : Parser, ∃ fuel st', Parser.synchronizeF fuel st = some st' ∧
      (st'.peek_token.kind = some TokenKind.EOF ∨
       st'.peek_token.kind = some TokenKind.Semicolon)) ∧
    (∀ input : List Char, ∃ fuel r,
      Parser.parseF fuel (Parser.new input) = some r) := by
  refine ⟨?_, ?_, ?_, ?_⟩
  · intro st
    by_cases hk : st.nextToken.1.kind = some TokenKind.EOF
    · exact Or.inl hk
    · obtain ⟨-, -, -, C4, -⟩ := Lexer.nextToken_facts st
      exact Or.inr (C4 hk)
  · intro st
    exact Lexer.scanGo_reaches (Lexer.lexMeasure st + 1) st (Nat.lt_succ_self _)
  · intro st
    have hy := Parser.synchronizeF_isSome (Parser.parseMeasure st + 1) st
      (Nat.lt_succ_self _)
    cases hs : Parser.synchronizeF (Parser.parseMeasure st + 1) st with
    | none => rw [hs] at hy; cases hy
    | some st' =>
      obtain ⟨-, -, k⟩ := Parser.synchronizeF_spec _ _ _ hs
      exact ⟨_, st', hs, k⟩
  · intro input
    exact Parser.parseF_total (Parser.new input)

/-- Claim C7, counterexample: on `'hello world` the first `next_token`
call is non-`EOF`, consumes the malformed rune lexeme `'hello ` (seven
characters, recorded verbatim in the `UnterminatedRune` error payload),
yet the emitted token carries the empty value — not the source text the
token was derived from. -/
theorem malformed_token_value_not_source_cex :
    (Lexer.new "'hello world".data).nextToken.1.kind ≠ some TokenKind.EOF ∧
    (Lexer.new "'hello world".data).nextToken.1.kind ≠
      some TokenKind.BeforeStart ∧
    (Lexer.new "'hello world".data).nextToken.1.value = [] ∧
    (Lexer.new "'hello world".data).nextToken.2.errors.map LexerError.kind =
      [LexerErrorKind.UnterminatedRune "'hello ".data] ∧
    0 < (Lexer.new "'hello world".data).nextToken.2.current_position ∧
    (Lexer.new "'hello world".data).nextToken.1.value ≠
      slice "'hello world".data 0
        (Lexer.new "'hello world".data).nextToken.2.current_position := by
  decide

/-- Claim C7 (amended): every token `next_token` returns with a
classified kind (`Some k`, `k ≠ EOF`) carries as value the exact source
slice of its recorded position span; the kind-less tokens emitted for
malformed literal lexemes instead carry an empty value (see the
counterexample). -/
theorem classified_token_value_exact (st : Lexer) (k : TokenKind)
    (hk : (st.nextToken).1.kind = some k) (hne : k ≠ TokenKind.EOF) :
    (st.nextToken).1.value = slice st.input
      (st.nextToken).1.position.column_start
      (st.nextToken).1.position.column_end := by
  obtain ⟨-, -, -, -, C5⟩ := Lexer.nextToken_facts st
  exact C5 k hk hne

/-- Claim C7, witness: the identifier token scanned from `football`
carries exactly its source slice. -/
theorem classified_token_value_exact_witness :
    (Lexer.new "football".data).nextToken.1.kind =
      some TokenKind.Identifier ∧
    (Lexer.new "football".data).nextToken.1.value =
      slice "football".data
        (Lexer.new "football".data).nextToken.1.position.column_start
        (Lexer.new "football".data).nextToken.1.position.column_end :=
  ⟨by decide, classified_token_value_exact (Lexer.new "football".data)
    TokenKind.Identifier (by decide) (by decide)⟩

/-- Claim C8: scanning `"hello world` (no closing quote) records exactly
one error, of kind `UnterminatedString` (payload: the whole open
lexeme), and the first token returned has no kind; scanning
`'hello world` records exactly one error, of kind `UnterminatedRune`. -/
theorem unterminated_string_and_rune_single_error :
    (scanAll "\"hello world".data).2.errors.map LexerError.kind =
      [LexerErrorKind.UnterminatedString "\"hello world".data] ∧
    (Lexer.new "\"hello world".data).nextToken.1.kind = none ∧
    (scanAll "'hello world".data).2.errors.map LexerError.kind =
      [LexerErrorKind.UnterminatedRune "'hello ".data] := by decide

/-- Claim C9: the classifier maps `123` to `IntegerLiteral`, `123.456`
to `FloatLiteral`, `"hi"` to `StringLiteral`, `'a'` and `'\n'` to
`RuneLiteral`, and rejects `123.`, `.123`, `12.3.4` and `123abc`. -/
theorem literal_classifier_cases :
    TokenKind.fromStr "123".data = some TokenKind.IntegerLiteral ∧
    TokenKind.fromStr "123.456".data = some TokenKind.FloatLiteral ∧
    TokenKind.fromStr "\"hi\"".data = some TokenKind.StringLiteral ∧
    TokenKind.fromStr "'a'".data = some TokenKind.RuneLiteral ∧
    TokenKind.fromStr "'\\n'".data = some TokenKind.RuneLiteral ∧
    TokenKind.fromStr "123.".data = none ∧
    TokenKind.fromStr ".123".data = none ∧
    TokenKind.fromStr "12.3.4".data = none ∧
    TokenKind.fromStr "123abc".data = none := by decide

/-- Claim C10: `EOF` is absorbing at both interfaces — after a
tokenizer `EOF` the next call returns `EOF` again with the state (hence
the error list) unchanged, and once the parser's lookahead is `EOF`,
`advance` pins both current and lookahead tokens at `EOF` without
touching the tokenizer, stably across further advances. -/
theorem eof_absorbing :
    (∀ st : Lexer, st.nextToken.1.kind = some TokenKind.EOF →
      st.nextToken.2.nextToken.1.kind = some TokenKind.EOF ∧
      st.nextToken.2.nextToken.2 = st.nextToken.2) ∧
    (∀ st : Parser, st.peek_token.kind = some TokenKind.EOF →
      st.advance.current_token.kind = some TokenKind.EOF ∧
      st.advance.peek_token.kind = some TokenKind.EOF ∧
      st.advance.lexer = st.lexer ∧ st.advance.errors = st.errors ∧
      st.advance.advance.current_token.kind = some TokenKind.EOF ∧
      st.advance.advance.peek_token.kind = some TokenKind.EOF ∧
      st.advance.advance.lexer = st.lexer) := by
  constructor
  · intro st hk
    have habs := Lexer.nextToken_EOF_absorb st st.nextToken.1 st.nextToken.2
      rfl hk
    rw [habs]
    exact ⟨rfl, rfl⟩
  · intro st hk
    have h1 : st.advance = { st with
        current_token := st.peek_token,
        peek_token := Token.newWithKind .EOF [] st.peek_token.position } := by
      rw [Parser.advance_def, if_neg (by simp [hk])]
    have h2 : st.advance.peek_token.kind = some TokenKind.EOF := by
      rw [h1]
      rfl
    have h3 : st.advance.advance = { st.advance with
        current_token := st.advance.peek_token,
        peek_token := Token.newWithKind .EOF [] st.advance.peek_token.position } := by
      rw [Parser.advance_def st.advance, if_neg (by simp [h2])]
    refine ⟨by rw [h1]; exact hk, h2, by rw [h1], by rw [h1], ?_, ?_, ?_⟩
    · rw [h3]
      exact h2
    · rw [h3]
      rfl
    · rw [h3, h1]

/-- Claim C10, witness: the absorption facts on the empty input's
parser (whose lookahead is already `EOF`). -/
theorem eof_absorbing_witness :
    (Parser.new []).advance.current_token.kind = some TokenKind.EOF ∧
    (Parser.new []).advance.peek_token.kind = some TokenKind.EOF ∧
    (Parser.new []).advance.lexer = (Parser.new []).lexer ∧
    (Parser.new []).advance.errors = (Parser.new []).errors ∧
    (Parser.new []).advance.advance.current_token.kind =
      some TokenKind.EOF ∧
    (Parser.new []).advance.advance.peek_token.kind = some TokenKind.EOF ∧
    (Parser.new []).advance.advance.lexer = (Parser.new []).lexer :=
  eof_absorbing.2 (Parser.new []) (by decide)

end Gor
